import Mathlib

/-!
# Verification of the winit event-loop core and data model

Shallow embedding of the parts of the `winit` repository that the checked
specification talks about:

* `winit-core/src/window.rs`: IME request validation (`ImeEnableRequest::new`,
  `ImeSurroundingText::new`).
* `winit-core/src/event.rs`: `Force::normalized`, `ButtonSource::mouse_button`.
* `winit-web/src/event_loop/runner.rs`: the web event-loop runner (`Shared`),
  modelled as an executable state machine with fuel for the recursive queue
  draining, parametrized by an abstract application handler.
* `winit-x11/src/ime/callbacks.rs`: the transactional input-method replacement.
* `winit-x11/src/monitor.rs`: monitor-list construction and primary selection.

Rust `String`s are modelled at the byte level (`List Nat` of UTF-8 bytes),
`f64` values by exact rationals (the claims checked are about which branch
computes which division, not about rounding), `HashSet` by duplicate-free
lists, and `HashMap` by association lists.
-/

namespace Winit

/-! ## winit-core/src/window.rs : IME request validation -/

/-- `ImeCapabilitiesFlags` is a three-bit `bitflags` set (PURPOSE, CURSOR_AREA,
SURROUNDING_TEXT); `ImeCapabilities` wraps it and exposes one boolean accessor
per bit, so it is modelled as three booleans. -/
structure ImeCapabilities where
  purpose : Bool
  cursor_area : Bool
  surrounding_text : Bool
deriving DecidableEq, Repr

/-- `ImePurpose` from `winit-core/src/window.rs` (text-input purpose hint).
Only its presence or absence matters to the claims; payload enum kept opaque
as a wrapped number. -/
structure ImePurpose where
  raw : Nat
deriving DecidableEq, Repr

/-- `(Position, Size)` payload of the IME cursor area, opaque to the claims. -/
structure ImeCursorArea where
  position : Int × Int
  size : Int × Int
deriving DecidableEq, Repr

/-- Errors of `ImeSurroundingText::new`. -/
inductive ImeSurroundingTextError where
  | textTooLong
  | cursorBadPosition
  | anchorBadPosition
deriving DecidableEq, Repr

/-- `ImeSurroundingText`: the validated surrounding-text excerpt. `text` is
the UTF-8 byte sequence of the Rust `String`. -/
structure ImeSurroundingText where
  text : List Nat
  cursor : Nat
  anchor : Nat
deriving DecidableEq, Repr

/-- Byte-level model of Rust `str::is_char_boundary`: true iff the index is
the length of the string, or the byte at the index exists and is not a UTF-8
continuation byte (`b < 0x80 || b >= 0xC0`). -/
def isCharBoundary (text : List Nat) (i : Nat) : Bool :=
  match text.get? i with
  | some b => decide (b < 128) || decide (192 ≤ b)
  | none => decide (i = text.length)

/-- `ImeSurroundingText::new` from `winit-core/src/window.rs`: rejects text of
4000 bytes or more with `TextTooLong`, then validates that `cursor` and
`anchor` fall on char boundaries within the text (`is_char_boundary(i) && i <=
len`), reporting `CursorBadPosition` / `AnchorBadPosition`; on success stores
the three arguments unchanged. -/
def ImeSurroundingText.new (text : List Nat) (cursor anchor : Nat) :
    Except ImeSurroundingTextError ImeSurroundingText :=
  if text.length < 4000 then
    if isCharBoundary text cursor && decide (cursor ≤ text.length) then
      if isCharBoundary text anchor && decide (anchor ≤ text.length) then
        .ok ⟨text, cursor, anchor⟩
      else .error .anchorBadPosition
    else .error .cursorBadPosition
  else .error .textTooLong

/-- `ImeRequestData` from `winit-core/src/window.rs`: the three optional
payload fields communicated to the system IME. -/
structure ImeRequestData where
  purpose : Option ImePurpose
  cursor_area : Option ImeCursorArea
  surrounding_text : Option ImeSurroundingText
deriving DecidableEq, Repr

/-- `ImeEnableRequest`: a validated pair of capabilities and initial data. -/
structure ImeEnableRequest where
  capabilities : ImeCapabilities
  request_data : ImeRequestData
deriving DecidableEq, Repr

/-- `ImeEnableRequest::new` from `winit-core/src/window.rs`: returns `none`
when any of the three capability flags disagrees (XOR) with the presence of
the corresponding data field. -/
def ImeEnableRequest.new (capabilities : ImeCapabilities)
    (request_data : ImeRequestData) : Option ImeEnableRequest :=
  if capabilities.cursor_area.xor request_data.cursor_area.isSome then none
  else if capabilities.purpose.xor request_data.purpose.isSome then none
  else if capabilities.surrounding_text.xor request_data.surrounding_text.isSome then none
  else some ⟨capabilities, request_data⟩

/-! ## winit-core/src/event.rs : Force and ButtonSource -/

/-- `Force` from `winit-core/src/event.rs`. The `f64` fields are modelled by
exact rationals; the claims checked concern which branch returns which
quotient, not IEEE rounding. -/
inductive Force where
  | calibrated (force : ℚ) (max_possible_force : ℚ)
  | normalized (force : ℚ)
deriving DecidableEq, Repr

/-- `Force::normalized()` (named `normalizedValue` here because the `Force`
constructor already uses the name): `force / max_possible_force` for
calibrated readings, the value itself for normalized readings — no clamping. -/
def Force.normalizedValue : Force → ℚ
  | .calibrated force max_possible_force => force / max_possible_force
  | .normalized force => force

/-- `MouseButton` from `winit-core/src/event.rs`. -/
inductive MouseButton where
  | left
  | right
  | middle
  | back
  | forward
  | other (code : Nat)
deriving DecidableEq, Repr

/-- `FingerId` is an opaque integer-backed identifier. -/
abbrev FingerId := Nat

/-- `ButtonSource` from `winit-core/src/event.rs`. The `u16` payload of
`Unknown` is modelled as `Nat` (the function only pattern-matches on it). -/
inductive ButtonSource where
  | mouse (button : MouseButton)
  | touch (finger_id : FingerId) (force : Option Force)
  | unknown (button : Nat)
deriving DecidableEq, Repr

/-- `ButtonSource::mouse_button` from `winit-core/src/event.rs`: mouse buttons
pass through, touch maps to `Left`, unknown codes map `0/1/2/3/4` to
`Left/Middle/Right/Back/Forward` and anything else to `Other`. -/
def ButtonSource.mouse_button : ButtonSource → MouseButton
  | .mouse button => button
  | .touch _ _ => .left
  | .unknown button =>
    match button with
    | 0 => .left
    | 1 => .middle
    | 2 => .right
    | 3 => .back
    | 4 => .forward
    | _ => .other button

/-! ## winit-x11/src/ime/callbacks.rs : transactional input-method replacement

`replace_im` talks to Xlib through `open_im`, `set_destroy_callback` and
`ImeContext::new`; those native operations are modelled as an oracle
(`ImeEnv`).  The inner IME state (`ImeInner`) keeps the fields `replace_im`
reads and writes: the current method, the per-window context map (modelled as
an association list), and the `is_destroyed` / `is_fallback` flags. -/

/-- An X window identifier. -/
abbrev XWindow := Nat

/-- The rectangle stored in `ImeContext.ic_area`. -/
structure XimArea where
  x : Int
  y : Int
  width : Int
  height : Int
deriving DecidableEq, Repr

/-- A per-window IME context; only the fields `replace_im` reads
(`ic_area`, `is_allowed`) are modelled, plus an opaque native handle. -/
structure ImeContext where
  ic_area : XimArea
  is_allowed : Bool
  native : Nat
deriving DecidableEq, Repr

/-- An opened X input method (opaque native handle). -/
structure InputMethod where
  im : Nat
deriving DecidableEq, Repr

/-- `ReplaceImError` from `winit-x11/src/ime/callbacks.rs`. -/
inductive ReplaceImError where
  | methodOpenFailed
  | contextCreationFailed
  | setDestroyCallbackFailed
deriving DecidableEq, Repr

/-- The `ImeInner` state mutated by `replace_im`. -/
structure ImeInner where
  im : Option InputMethod
  contexts : List (XWindow × Option ImeContext)
  is_destroyed : Bool
  is_fallback : Bool
deriving DecidableEq, Repr

/-- Oracle for the native X11 operations used by `replace_im`:
`open_im` is the outcome of `potential_input_methods.open_im` together with
its `is_fallback` flag, `set_destroy_callback` says whether installing the
destroy callback on a given method succeeds, and `new_context` is
`ImeContext::new` under the new method for a window with the preserved
cursor area and `is_allowed` flag. -/
structure ImeEnv where
  open_im : Option (InputMethod × Bool)
  set_destroy_callback : InputMethod → Bool
  new_context : InputMethod → XWindow → Option XimArea → Bool → Option ImeContext

/-- The context-rebuilding loop of `replace_im`: for every entry of the old
map, create a context under the new method from the old context's `ic_area`
and `is_allowed` (defaulted when the old entry is `None`); any single failure
aborts the whole rebuild. -/
def buildNewContexts (env : ImeEnv) (new_im : InputMethod) :
    List (XWindow × Option ImeContext) → Option (List (XWindow × Option ImeContext))
  | [] => some []
  | (window, old_context) :: rest =>
    let area := old_context.map fun c => c.ic_area
    let is_allowed := (old_context.map fun c => c.is_allowed).getD false
    match env.new_context new_im window area is_allowed with
    | none => none
    | some ctx =>
      match buildNewContexts env new_im rest with
      | none => none
      | some tail => some ((window, some ctx) :: tail)

/-- `replace_im` from `winit-x11/src/ime/callbacks.rs`: open a new input
method, install its destroy callback, rebuild every per-window context under
it, and only if everything succeeded install the new method and context map
(also clearing `is_destroyed` and recording the new method's fallback flag).
Any failure returns the corresponding error and leaves `inner` unchanged
(in the source, mutation of `inner` only happens after the final success
point; the freshly opened method is closed on the error paths). -/
def replace_im (env : ImeEnv) (inner : ImeInner) : Except ReplaceImError ImeInner :=
  match env.open_im with
  | none => .error .methodOpenFailed
  | some (new_im, is_fallback) =>
    if env.set_destroy_callback new_im then
      match buildNewContexts env new_im inner.contexts with
      | none => .error .contextCreationFailed
      | some new_contexts =>
        .ok { inner with
                im := some new_im
                contexts := new_contexts
                is_destroyed := false
                is_fallback := is_fallback }
    else .error .setDestroyCallbackFailed

/-- `xim_destroy_callback` from `winit-x11/src/ime/callbacks.rs`: the server
destroyed the current method, so mark `is_destroyed`; if the lost method was
not already the fallback, attempt `replace_im`; `none` models the process
abort (`panic`) that happens when no fallback method can be obtained. -/
def xim_destroy_callback (env : ImeEnv) (inner : ImeInner) : Option ImeInner :=
  let inner1 := { inner with is_destroyed := true }
  if inner1.is_fallback then some inner1
  else
    match replace_im env inner1 with
    | .ok inner2 => some { inner2 with is_fallback := true }
    | .error _ => none

/-! ## winit-x11/src/monitor.rs : monitor list and primary selection -/

/-- The fields of a `randr::GetCrtcInfoReply` read by `query_monitor_list`. -/
structure CrtcInfo where
  width : Nat
  height : Nat
  x : Int
  y : Int
  outputs : List Nat
deriving DecidableEq, Repr

/-- The `(name, scale_factor, video_modes)` triple that
`XConnection::get_output_info` produces; opaque to the claims. -/
structure OutputInfo where
  raw : Nat
deriving DecidableEq, Repr

/-- `MonitorHandle` from `winit-x11/src/monitor.rs`; the name/scale/modes
payload is kept opaque in `info`. -/
structure MonitorHandle where
  id : Nat
  primary : Bool
  position : Int × Int
  info : OutputInfo
deriving DecidableEq, Repr

/-- `MonitorHandle::new`: returns `none` exactly when `get_output_info`
(modelled as the oracle argument) fails for this CRTC. -/
def MonitorHandle.new (getOutputInfo : Nat → CrtcInfo → Option OutputInfo)
    (id : Nat) (crtc : CrtcInfo) (primary : Bool) : Option MonitorHandle :=
  (getOutputInfo id crtc).map fun info =>
    { id := id, primary := primary, position := (crtc.x, crtc.y), info := info }

/-- `MonitorHandle::dummy`. -/
def MonitorHandle.dummy : MonitorHandle :=
  { id := 0, primary := true, position := (0, 0), info := ⟨0⟩ }

/-- The CRTC loop of `query_monitor_list`: skip CRTCs with zero width or
height or no outputs; a CRTC is primary when its first output equals the
server-reported primary output; `has_primary` accumulates that flag (note:
before `MonitorHandle::new` may fail); successfully built handles are
appended in order. -/
def queryMonitorListAux (getOutputInfo : Nat → CrtcInfo → Option OutputInfo)
    (primaryOutput : Nat) :
    List (Nat × CrtcInfo) → Bool → List MonitorHandle → Bool × List MonitorHandle
  | [], has_primary, acc => (has_primary, acc)
  | (crtc_id, crtc) :: rest, has_primary, acc =>
    if crtc.width = 0 ∨ crtc.height = 0 ∨ crtc.outputs = [] then
      queryMonitorListAux getOutputInfo primaryOutput rest has_primary acc
    else
      let is_primary := decide (crtc.outputs.head? = some primaryOutput)
      queryMonitorListAux getOutputInfo primaryOutput rest (has_primary || is_primary)
        (acc ++ (MonitorHandle.new getOutputInfo crtc_id crtc is_primary).toList)

/-- The fallback at the end of `query_monitor_list`: mark the first monitor
primary. -/
def markFirstPrimary : List MonitorHandle → List MonitorHandle
  | [] => []
  | m :: rest => { m with primary := true } :: rest

/-- `XConnection::query_monitor_list` (the part after the X round-trips): the
CRTC loop followed by the primary fallback, which runs only when no usable
CRTC was reported primary. -/
def query_monitor_list (getOutputInfo : Nat → CrtcInfo → Option OutputInfo)
    (primaryOutput : Nat) (crtcs : List (Nat × CrtcInfo)) : List MonitorHandle :=
  let r := queryMonitorListAux getOutputInfo primaryOutput crtcs false []
  if r.1 then r.2 else markFirstPrimary r.2

/-- `XConnection::primary_monitor`: the first monitor with the primary flag,
or the dummy handle when there is none. -/
def primary_monitor (getOutputInfo : Nat → CrtcInfo → Option OutputInfo)
    (primaryOutput : Nat) (crtcs : List (Nat × CrtcInfo)) : MonitorHandle :=
  ((query_monitor_list getOutputInfo primaryOutput crtcs).find? fun m => m.primary).getD
    MonitorHandle.dummy

/-! ## winit-web/src/event_loop/runner.rs : the event-loop runner

`Shared` wraps an `Execution` holding the control-flow cell, the exit flag,
the runner enum, the queued-event `VecDeque`, the pending-redraw `HashSet`,
the pending-destroy `VecDeque` and the canvas list.  The model is an
executable state machine over that data:

* the application handler is abstracted as `App`: a step function from the
  handler's own state and the dispatched event to a new handler state plus
  the reentrant requests (`Cmd`) made during the callback;
* the recursive queue draining of `handle_event` is fuel-bounded (`none`
  models non-termination from application-introduced cycles, which the
  source also does not protect against, and the `unreachable` arms);
* `web_time::Instant` is modelled as a natural number, supplied where the
  source calls `Instant::now()`;
* the `HashSet<WindowId>` is a duplicate-free list (its iteration order is
  unspecified in Rust; the properties proved are order-independent counts);
* `Event::ScaleChange` is not modelled: its dispatch delegates to canvas
  code outside the embedded sources and no claim mentions it;
* `delivered` and `teardown_count` are ghost fields recording the events
  handed to the application handler and the number of
  `handle_loop_destroyed` runs. -/

/-- `WindowId`: opaque integer-backed identifier. -/
abbrev WindowId := Nat

/-- `StartCause` from `winit-core`, with `Instant` as `Nat`. -/
inductive StartCause where
  | init
  | poll
  | waitCancelled (start : Nat) (requested_resume : Option Nat)
  | resumeTimeReached (start : Nat) (requested_resume : Nat)
deriving DecidableEq, Repr

/-- The window-scoped events the runner claims talk about; all remaining
variants are collapsed into an opaque payload. -/
inductive WindowEvent where
  | redrawRequested
  | destroyed
  | other (payload : Nat)
deriving DecidableEq, Repr

/-- The internal `Event` envelope of `winit-web/src/event_loop/runner.rs`
(without `ScaleChange`, see above); device-event payloads are opaque. -/
inductive Event where
  | newEvents (cause : StartCause)
  | windowEvent (window_id : WindowId) (event : WindowEvent)
  | deviceEvent (payload : Nat)
  | suspended
  | createSurfaces
  | resumed
  | aboutToWait
  | userWakeUp
deriving DecidableEq, Repr

/-- `ControlFlow` from `winit-core`. -/
inductive ControlFlow where
  | poll
  | wait
  | waitUntil (deadline : Nat)
deriving DecidableEq, Repr

/-- Modelled from the spec: the `State` enum lives in
`winit-web/src/event_loop/state.rs`, which is not among the embedded sources;
spec section 3 gives `LoopState = Init | Poll{handle} | Wait{start} |
WaitUntil{start, end, handle} | Exit`, matching every construction site in
`runner.rs`.  The `WaitUntil` schedule handle additionally records the delay
it was scheduled with (`runner.rs` computes it before constructing the
state). -/
inductive LoopState where
  | init
  | poll
  | wait (start : Nat)
  | waitUntil (start : Nat) (deadline : Nat) (delay : Nat)
  | exit
deriving DecidableEq, Repr

/-- Modelled from the spec: `state.exiting()` is true exactly in the terminal
`Exit` state ("`Exit` is terminal: once reached, further `enqueue` calls are
no-ops"). -/
def LoopState.exiting : LoopState → Bool
  | .exit => true
  | _ => false

/-- `RunnerEnum` from `winit-web/src/event_loop/runner.rs`; the `Runner`
payload's loop state is kept here, its application handler is the separate
`App`/`appState` of `Exec`. -/
inductive RunnerEnum where
  | pending
  | initializing (state : LoopState)
  | running (state : LoopState)
  | destroyed
deriving DecidableEq, Repr

/-- The reentrant requests an application callback can make on the event
loop while a dispatch is in flight (the `ActiveEventLoop` / `Window`
surface): request a redraw, queue a window destruction, request exit, set
the control flow, or wake the proxy.  While a callback runs, the runner
`RefCell` is mutably borrowed, so a nested `send_events` always lands in its
`Err(_)` branch and only queues: `request_redraw` inserts the id and queues
nothing, the local proxy wake-up falls through to queueing a `UserWakeUp`. -/
inductive Cmd where
  | requestRedraw (id : WindowId)
  | notifyDestroy (id : WindowId)
  | exitRequest
  | setControlFlow (cf : ControlFlow)
  | proxyWakeUp
deriving DecidableEq, Repr

/-- The abstract application handler: `handle_single_event` routes each
`Event` to the corresponding `ApplicationHandler` method; the model lets the
handler transform its own state and issue reentrant commands. -/
structure App (σ : Type) where
  step : σ → Event → σ × List Cmd

/-- The state of `Execution` (plus ghost fields `delivered` and
`teardown_count`). -/
structure Exec (σ : Type) where
  control_flow : ControlFlow
  exitFlag : Bool
  runner : RunnerEnum
  events : List Event
  all_canvases : List WindowId
  redraw_pending : List WindowId
  destroy_pending : List WindowId
  proxy_pending : Bool
  appState : σ
  delivered : List Event
  teardown_count : Nat

/-- `HashSet::insert` on the duplicate-free-list model. -/
def insertSet (id : WindowId) (s : List WindowId) : List WindowId :=
  if id ∈ s then s else s ++ [id]

/-- `Shared::is_closed`: `Running` consults `state.exiting()`, `Destroyed` is
closed, `Pending`/`Initializing` are not (the `try_borrow` error branch is
only reachable reentrantly and is modelled at the `Cmd` level). -/
def isClosed {σ : Type} (s : Exec σ) : Bool :=
  match s.runner with
  | .running st => st.exiting
  | .pending => false
  | .initializing _ => false
  | .destroyed => true

/-- Effect of one reentrant request made during a callback (runner borrowed,
so nested `send_events` only queues). -/
def applyCmd {σ : Type} (s : Exec σ) : Cmd → Exec σ
  | .requestRedraw id => { s with redraw_pending := insertSet id s.redraw_pending }
  | .notifyDestroy id => { s with destroy_pending := s.destroy_pending ++ [id] }
  | .exitRequest => { s with exitFlag := true }
  | .setControlFlow cf => { s with control_flow := cf }
  | .proxyWakeUp => { s with events := s.events ++ [Event.userWakeUp] }

/-- The `RunnerEnum::Running` arm of `handle_event`: run the application
callback on the event (recording it in the ghost trace) and apply the
reentrant requests it made. -/
def dispatchStep {σ : Type} (app : App σ) (s : Exec σ) (e : Event) : Exec σ :=
  (app.step s.appState e).2.foldl applyCmd
    { s with appState := (app.step s.appState e).1, delivered := s.delivered ++ [e] }

/-- The pre-fetch of proxy wake-ups in `handle_event`:
`events.extend(event_loop_proxy.take().then_some(Event::UserWakeUp))`. -/
def pumpProxy {σ : Type} (s : Exec σ) : Exec σ :=
  if s.proxy_pending then
    { s with events := s.events ++ [Event.userWakeUp], proxy_pending := false }
  else s

/-- `events.pop_front()`. -/
def popEvent {σ : Type} (s : Exec σ) : Option (Exec σ × Event) :=
  match s.events with
  | [] => none
  | e :: rest => some ({ s with events := rest }, e)

/-- The first line of `Shared::handle_event`:
`if self.is_closed() { self.exit(); }`. -/
def flagClosed {σ : Type} (s : Exec σ) : Exec σ :=
  if isClosed s then { s with exitFlag := true } else s

/-- `Shared::handle_event`: flip the exit flag when the loop is closed
(`flagClosed`), dispatch to the application when `Running` (queue when
`Pending`, drop when `Destroyed`, `unreachable` when `Initializing`), then —
unless the exit flag is set or the runner is gone — pull pending proxy
wake-ups into the queue and recursively handle one queued event.  The
recursion is fuel-bounded; `none` means the fuel ran out or an `unreachable`
arm was hit. -/
def handleEvent {σ : Type} (app : App σ) : Nat → Exec σ → Event → Option (Exec σ)
  | 0, _, _ => none
  | fuel+1, s, e =>
    match (flagClosed s).runner with
    | .running _ =>
      let s3 := dispatchStep app (flagClosed s) e
      if s3.exitFlag then some s3
      else
        match s3.runner with
        | .running _ =>
          match popEvent (pumpProxy s3) with
          | none => some (pumpProxy s3)
          | some (s4, e2) => handleEvent app fuel s4 e2
        | _ => some s3
    | .pending => some { flagClosed s with events := (flagClosed s).events ++ [e] }
    | .destroyed => some (flagClosed s)
    | .initializing _ => none

/-- The queue-draining tail of `Shared::handle_event`, as a standalone
function of the post-dispatch state (`handleEvent` at successor fuel is the
dispatch arm followed by this, see `handleEvent_succ`). -/
def afterDispatch {σ : Type} (app : App σ) (fuel : Nat) (s3 : Exec σ) :
    Option (Exec σ) :=
  if s3.exitFlag then some s3
  else
    match s3.runner with
    | .running _ =>
      match popEvent (pumpProxy s3) with
      | none => some (pumpProxy s3)
      | some (s4, e2) => handleEvent app fuel s4 e2
    | _ => some s3

/-- `for event in events { self.handle_event(event) }`. -/
def handleEvents {σ : Type} (app : App σ) (fuel : Nat) :
    List Event → Exec σ → Option (Exec σ)
  | [], s => some s
  | e :: rest, s =>
    match handleEvent app fuel s e with
    | none => none
    | some s2 => handleEvents app fuel rest s2

/-- `Shared::process_destroy_pending_windows`: pop destroy-pending ids one at
a time (new ids queued by callbacks during the loop are also processed),
purge the canvas table, deliver `WindowEvent::Destroyed`, then remove the id
from the pending-redraw set. -/
def processDestroyPending {σ : Type} (app : App σ) : Nat → Exec σ → Option (Exec σ)
  | 0, _ => none
  | fuel+1, s =>
    match s.destroy_pending with
    | [] => some s
    | id :: rest =>
      let s1 := { s with
                    destroy_pending := rest
                    all_canvases := s.all_canvases.filter fun x => x ≠ id }
      match handleEvent app fuel s1 (.windowEvent id .destroyed) with
      | none => none
      | some s2 =>
        processDestroyPending app fuel
          { s2 with redraw_pending := s2.redraw_pending.filter fun x => x ≠ id }

/-- The redraw loop of `run_until_cleared`, over the drained snapshot of the
pending-redraw set. -/
def drainRedraws {σ : Type} (app : App σ) (fuel : Nat) :
    List WindowId → Exec σ → Option (Exec σ)
  | [], s => some s
  | id :: rest, s =>
    match handleEvent app fuel s (.windowEvent id .redrawRequested) with
    | none => none
    | some s2 => drainRedraws app fuel rest s2

/-- `Shared::apply_control_flow` at time `now`: compute the new loop state
(`Exit` when the exit flag is set, else from the control-flow cell; entering
`WaitUntil{deadline}` schedules a wake after `0` if `deadline <= now` and
`deadline - now` otherwise, dropping any previous schedule) and install it
when the runner is `Running`. -/
def applyControlFlow {σ : Type} (s : Exec σ) (now : Nat) : Exec σ :=
  let newState : LoopState :=
    if s.exitFlag then .exit
    else
      match s.control_flow with
      | .poll => .poll
      | .wait => .wait now
      | .waitUntil deadline =>
        .waitUntil now deadline (if deadline ≤ now then 0 else deadline - now)
  match s.runner with
  | .running _ => { s with runner := .running newState }
  | _ => s

/-- `Shared::handle_loop_destroyed`: drop all canvases and listener handles
and leave the runner `Destroyed`; the ghost counter records each run. -/
def handleLoopDestroyed {σ : Type} (s : Exec σ) : Exec σ :=
  { s with
      all_canvases := []
      runner := .destroyed
      teardown_count := s.teardown_count + 1 }

/-- `Shared::run_until_cleared`: dispatch the given events, process pending
destroys, drain the pending-redraw set (snapshotted and cleared up front)
delivering one `RedrawRequested` per collected window, dispatch
`AboutToWait`, apply the control flow, and tear the loop down if it is now
closed. -/
def runUntilCleared {σ : Type} (app : App σ) (fuel : Nat) (s : Exec σ)
    (events : List Event) (now : Nat) : Option (Exec σ) :=
  match handleEvents app fuel events s with
  | none => none
  | some s1 =>
    match processDestroyPending app fuel s1 with
    | none => none
    | some s2 =>
      match drainRedraws app fuel s2.redraw_pending { s2 with redraw_pending := [] } with
      | none => none
      | some s3 =>
        match handleEvent app fuel s3 .aboutToWait with
        | none => none
        | some s4 =>
          let s5 := applyControlFlow s4 now
          some (if isClosed s5 then handleLoopDestroyed s5 else s5)

/-- `Runner::maybe_start_cause`: the `StartCause` for the current loop state,
`none` in `Exit`. -/
def maybeStartCause : LoopState → Option StartCause
  | .init => some .init
  | .poll => some .poll
  | .wait start => some (.waitCancelled start none)
  | .waitUntil start deadline _ => some (.waitCancelled start (some deadline))
  | .exit => none

/-- `Shared::send_events` called from outside any dispatch (so the
`try_borrow` calls succeed): discard when closed, queue when the runner is
not attached yet, otherwise run a dispatch cycle headed by the synthesized
`NewEvents` (unless the state is `Exit`, which has no start cause). -/
def sendEvents {σ : Type} (app : App σ) (fuel : Nat) (s : Exec σ)
    (events : List Event) (now : Nat) : Option (Exec σ) :=
  if isClosed s then some s
  else
    match s.runner with
    | .running st =>
      match maybeStartCause st with
      | none => some s
      | some cause => runUntilCleared app fuel s (Event.newEvents cause :: events) now
    | .pending => some { s with events := s.events ++ events }
    | .initializing _ => some { s with events := s.events ++ events }
    | .destroyed => some s

/-- `Shared::request_redraw` from outside any dispatch: insert the window
into the pending-redraw set, then `send_events([])`. -/
def request_redraw {σ : Type} (app : App σ) (fuel : Nat) (s : Exec σ)
    (id : WindowId) (now : Nat) : Option (Exec σ) :=
  sendEvents app fuel { s with redraw_pending := insertSet id s.redraw_pending } [] now

/-- `Shared::resume_time_reached(start, requested_resume)`: run a cycle
headed by `NewEvents(ResumeTimeReached { start, requested_resume })`. -/
def resume_time_reached {σ : Type} (app : App σ) (fuel : Nat) (s : Exec σ)
    (start requested_resume : Nat) (now : Nat) : Option (Exec σ) :=
  runUntilCleared app fuel s [Event.newEvents (.resumeTimeReached start requested_resume)] now

/-- The wake callback that `apply_control_flow` schedules on entering
`ControlFlow::WaitUntil`: `move || cloned.resume_time_reached(start, end)`
with `start` and `end` captured at scheduling time — the time at which the
platform actually fires the callback (`fireTime`) enters only as the current
time of the new cycle, never the `StartCause`. -/
def fireWaitUntil {σ : Type} (app : App σ) (fuel : Nat) (s : Exec σ)
    (start deadline : Nat) (fireTime : Nat) : Option (Exec σ) :=
  resume_time_reached app fuel s start deadline fireTime

/-- The `RedrawRequested` event envelope for window `w`. -/
def redrawEv (w : WindowId) : Event := Event.windowEvent w WindowEvent.redrawRequested

/-- The `Destroyed` event envelope for window `w`. -/
def destroyEv (w : WindowId) : Event := Event.windowEvent w WindowEvent.destroyed

/-- The application never requests a redraw of window `w` (in any callback). -/
def appNoRedraw {σ : Type} (app : App σ) (w : WindowId) : Prop :=
  ∀ a e, Cmd.requestRedraw w ∉ (app.step a e).2

/-- The application never queues window `w` for destruction. -/
def appNoDestroy {σ : Type} (app : App σ) (w : WindowId) : Prop :=
  ∀ a e, Cmd.notifyDestroy w ∉ (app.step a e).2

/-- The facts preserved by every step of a dispatch cycle, relative to a
distinguished window `w`: the runner and teardown counter are untouched, the
exit flag only ever rises, the delivered trace only grows, the queue only
acquires `UserWakeUp` entries while the runner is running, pending redraws
are never dropped (and never gain `w` if the application never requests it,
staying duplicate-free), pending destroys are never dropped (and never gain
`w` if the application never destroys it), and once the exit flag is set the
queue is never consumed. -/
structure StepInv {σ : Type} (app : App σ) (w : WindowId) (s s' : Exec σ) : Prop where
  runner_eq : s'.runner = s.runner
  teardown_eq : s'.teardown_count = s.teardown_count
  exit_mono : s.exitFlag = true → s'.exitFlag = true
  deliv_mono : ∃ t, s'.delivered = s.delivered ++ t
  events_sub : ∀ st, s.runner = RunnerEnum.running st →
    ∀ x ∈ s'.events, x ∈ s.events ∨ x = Event.userWakeUp
  redraw_mem : ∀ id, id ∈ s.redraw_pending → id ∈ s'.redraw_pending
  redraw_nodup : s.redraw_pending.Nodup → s'.redraw_pending.Nodup
  redraw_not_mem : appNoRedraw app w → w ∉ s.redraw_pending → w ∉ s'.redraw_pending
  destroy_mem : ∀ id, id ∈ s.destroy_pending → id ∈ s'.destroy_pending
  destroy_not_mem : appNoDestroy app w → w ∉ s.destroy_pending → w ∉ s'.destroy_pending
  exit_events : s.exitFlag = true → ∃ t, s'.events = s.events ++ t

/-- The subset of `StepInv` that also survives the destroy- and redraw-set
bookkeeping of a cycle (which legitimately removes pending entries). -/
structure CoreInv {σ : Type} (s s' : Exec σ) : Prop where
  runner_eq : s'.runner = s.runner
  teardown_eq : s'.teardown_count = s.teardown_count
  exit_mono : s.exitFlag = true → s'.exitFlag = true
  deliv_mono : ∃ t, s'.delivered = s.delivered ++ t
  events_sub : ∀ st, s.runner = RunnerEnum.running st →
    ∀ x ∈ s'.events, x ∈ s.events ∨ x = Event.userWakeUp
  exit_events : s.exitFlag = true → ∃ t, s'.events = s.events ++ t

/-- An application handler that does nothing: used to instantiate the
runner theorems on concrete inputs. -/
def trivApp : App Unit := ⟨fun _ _ => ((), [])⟩

/-- A concrete freshly-started execution state (runner attached and about to
run its first cycle) for instantiating the runner theorems. -/
def execAt (st : LoopState) (redraws destroys : List WindowId) : Exec Unit :=
  { control_flow := .wait
    exitFlag := false
    runner := .running st
    events := []
    all_canvases := redraws ++ destroys
    redraw_pending := redraws
    destroy_pending := destroys
    proxy_pending := false
    appState := ()
    delivered := []
    teardown_count := 0 }

end Winit

namespace Winit

/-! ## Helper lemmas -/

theorem mem_insertSet_self (id : WindowId) (s : List WindowId) : id ∈ insertSet id s := by
  by_cases h : id ∈ s <;> simp [insertSet, h]

theorem mem_insertSet_of_mem {a : WindowId} (id : WindowId) {s : List WindowId}
    (h : a ∈ s) : a ∈ insertSet id s := by
  by_cases hm : id ∈ s <;> simp [insertSet, hm, h]

theorem mem_insertSet {a id : WindowId} {s : List WindowId} :
    a ∈ insertSet id s ↔ a = id ∨ a ∈ s := by
  by_cases hm : id ∈ s
  · simp only [insertSet, if_pos hm]
    constructor
    · exact fun h => Or.inr h
    · rintro (rfl | h)
      · exact hm
      · exact h
  · simp [insertSet, hm, or_comm]

theorem nodup_insertSet {s : List WindowId} (id : WindowId) (h : s.Nodup) :
    (insertSet id s).Nodup := by
  by_cases hm : id ∈ s
  · simp [insertSet, hm, h]
  · simp [insertSet, hm, List.nodup_append, h]

theorem insertSet_idem (id : WindowId) (s : List WindowId) :
    insertSet id (insertSet id s) = insertSet id s := by
  show (if id ∈ insertSet id s then insertSet id s else insertSet id s ++ [id])
      = insertSet id s
  rw [if_pos (mem_insertSet_self id s)]

theorem foldl_applyCmd_runner {σ : Type} (cmds : List Cmd) : ∀ (s : Exec σ),
    (cmds.foldl applyCmd s).runner = s.runner := by
  induction cmds with
  | nil => intro s; rfl
  | cons c rest ih =>
    intro s
    rw [List.foldl_cons, ih]
    cases c <;> rfl

theorem foldl_applyCmd_teardown {σ : Type} (cmds : List Cmd) : ∀ (s : Exec σ),
    (cmds.foldl applyCmd s).teardown_count = s.teardown_count := by
  induction cmds with
  | nil => intro s; rfl
  | cons c rest ih =>
    intro s
    rw [List.foldl_cons, ih]
    cases c <;> rfl

theorem foldl_applyCmd_delivered {σ : Type} (cmds : List Cmd) : ∀ (s : Exec σ),
    (cmds.foldl applyCmd s).delivered = s.delivered := by
  induction cmds with
  | nil => intro s; rfl
  | cons c rest ih =>
    intro s
    rw [List.foldl_cons, ih]
    cases c <;> rfl

theorem foldl_applyCmd_events {σ : Type} (cmds : List Cmd) : ∀ (s : Exec σ),
    ∃ t, (cmds.foldl applyCmd s).events = s.events ++ t
      ∧ ∀ x ∈ t, x = Event.userWakeUp := by
  induction cmds with
  | nil => intro s; exact ⟨[], by simp, by simp⟩
  | cons c rest ih =>
    intro s
    rw [List.foldl_cons]
    obtain ⟨t, ht, hall⟩ := ih (applyCmd s c)
    cases c
    case proxyWakeUp =>
      refine ⟨Event.userWakeUp :: t, ?_, ?_⟩
      · rw [ht]
        simp [applyCmd]
      · intro x hx
        rcases List.mem_cons.mp hx with h | h
        · exact h
        · exact hall x h
    all_goals exact ⟨t, by rw [ht]; rfl, hall⟩

theorem foldl_applyCmd_exit {σ : Type} (cmds : List Cmd) : ∀ (s : Exec σ),
    s.exitFlag = true → (cmds.foldl applyCmd s).exitFlag = true := by
  induction cmds with
  | nil => intro s h; exact h
  | cons c rest ih =>
    intro s h
    rw [List.foldl_cons]
    apply ih
    cases c <;> simp [applyCmd, h]

theorem foldl_applyCmd_redraw_mem {σ : Type} (cmds : List Cmd) :
    ∀ (s : Exec σ) id, id ∈ s.redraw_pending →
      id ∈ (cmds.foldl applyCmd s).redraw_pending := by
  induction cmds with
  | nil => intro s id h; exact h
  | cons c rest ih =>
    intro s id h
    rw [List.foldl_cons]
    apply ih
    cases c
    case requestRedraw j => exact mem_insertSet_of_mem j h
    all_goals exact h

theorem foldl_applyCmd_redraw_nodup {σ : Type} (cmds : List Cmd) :
    ∀ (s : Exec σ), s.redraw_pending.Nodup →
      (cmds.foldl applyCmd s).redraw_pending.Nodup := by
  induction cmds with
  | nil => intro s h; exact h
  | cons c rest ih =>
    intro s h
    rw [List.foldl_cons]
    apply ih
    cases c
    case requestRedraw j => exact nodup_insertSet j h
    all_goals exact h

theorem foldl_applyCmd_redraw_not_mem {σ : Type} (cmds : List Cmd) :
    ∀ (s : Exec σ) w, Cmd.requestRedraw w ∉ cmds → w ∉ s.redraw_pending →
      w ∉ (cmds.foldl applyCmd s).redraw_pending := by
  induction cmds with
  | nil => intro s w _ h; exact h
  | cons c rest ih =>
    intro s w hc h
    rw [List.foldl_cons]
    have hc1 : Cmd.requestRedraw w ≠ c := fun he => hc (he ▸ List.mem_cons_self _ _)
    have hc2 : Cmd.requestRedraw w ∉ rest := fun he => hc (List.mem_cons_of_mem _ he)
    apply ih _ _ hc2
    cases c
    case requestRedraw j =>
      intro hmem
      rcases mem_insertSet.mp hmem with rfl | hmem2
      · exact hc1 rfl
      · exact h hmem2
    all_goals exact h

theorem foldl_applyCmd_destroy_mem {σ : Type} (cmds : List Cmd) :
    ∀ (s : Exec σ) id, id ∈ s.destroy_pending →
      id ∈ (cmds.foldl applyCmd s).destroy_pending := by
  induction cmds with
  | nil => intro s id h; exact h
  | cons c rest ih =>
    intro s id h
    rw [List.foldl_cons]
    apply ih
    cases c
    case notifyDestroy j => exact List.mem_append_left _ h
    all_goals exact h

theorem foldl_applyCmd_destroy_not_mem {σ : Type} (cmds : List Cmd) :
    ∀ (s : Exec σ) w, Cmd.notifyDestroy w ∉ cmds → w ∉ s.destroy_pending →
      w ∉ (cmds.foldl applyCmd s).destroy_pending := by
  induction cmds with
  | nil => intro s w _ h; exact h
  | cons c rest ih =>
    intro s w hc h
    rw [List.foldl_cons]
    have hc1 : Cmd.notifyDestroy w ≠ c := fun he => hc (he ▸ List.mem_cons_self _ _)
    have hc2 : Cmd.notifyDestroy w ∉ rest := fun he => hc (List.mem_cons_of_mem _ he)
    apply ih _ _ hc2
    cases c
    case notifyDestroy j =>
      intro hmem
      rcases List.mem_append.mp hmem with hmem2 | hmem2
      · exact h hmem2
      · have hwj : w = j := by simpa using hmem2
        exact hc1 (by rw [hwj])
    all_goals exact h

theorem StepInv.rfl {σ : Type} (app : App σ) (w : WindowId) (s : Exec σ) :
    StepInv app w s s where
  runner_eq := Eq.refl _
  teardown_eq := Eq.refl _
  exit_mono := fun h => h
  deliv_mono := ⟨[], by simp⟩
  events_sub := fun _ _ x hx => Or.inl hx
  redraw_mem := fun _ h => h
  redraw_nodup := fun h => h
  redraw_not_mem := fun _ h => h
  destroy_mem := fun _ h => h
  destroy_not_mem := fun _ h => h
  exit_events := fun _ => ⟨[], by simp⟩

theorem StepInv.comp {σ : Type} {app : App σ} {w : WindowId} {s1 s2 s3 : Exec σ}
    (h12 : StepInv app w s1 s2) (h23 : StepInv app w s2 s3) :
    StepInv app w s1 s3 where
  runner_eq := h23.runner_eq.trans h12.runner_eq
  teardown_eq := h23.teardown_eq.trans h12.teardown_eq
  exit_mono := fun h => h23.exit_mono (h12.exit_mono h)
  deliv_mono := by
    obtain ⟨t1, ht1⟩ := h12.deliv_mono
    obtain ⟨t2, ht2⟩ := h23.deliv_mono
    exact ⟨t1 ++ t2, by rw [ht2, ht1, List.append_assoc]⟩
  events_sub := by
    intro st hrun x hx
    have hrun2 : s2.runner = RunnerEnum.running st := h12.runner_eq.trans hrun
    rcases h23.events_sub st hrun2 x hx with h | h
    · exact h12.events_sub st hrun x h
    · exact Or.inr h
  redraw_mem := fun id h => h23.redraw_mem id (h12.redraw_mem id h)
  redraw_nodup := fun h => h23.redraw_nodup (h12.redraw_nodup h)
  redraw_not_mem := fun ha h => h23.redraw_not_mem ha (h12.redraw_not_mem ha h)
  destroy_mem := fun id h => h23.destroy_mem id (h12.destroy_mem id h)
  destroy_not_mem := fun ha h => h23.destroy_not_mem ha (h12.destroy_not_mem ha h)
  exit_events := by
    intro h
    obtain ⟨t1, ht1⟩ := h12.exit_events h
    obtain ⟨t2, ht2⟩ := h23.exit_events (h12.exit_mono h)
    exact ⟨t1 ++ t2, by rw [ht2, ht1, List.append_assoc]⟩

theorem flagClosed_inv {σ : Type} (app : App σ) (w : WindowId) (s : Exec σ) :
    StepInv app w s (flagClosed s) := by
  unfold flagClosed
  split
  · exact { StepInv.rfl app w s with exit_mono := fun _ => Eq.refl _ }
  · exact StepInv.rfl app w s

theorem flagClosed_runner {σ : Type} (s : Exec σ) : (flagClosed s).runner = s.runner := by
  unfold flagClosed
  split <;> rfl

theorem flagClosed_events {σ : Type} (s : Exec σ) : (flagClosed s).events = s.events := by
  unfold flagClosed
  split <;> rfl

theorem flagClosed_delivered {σ : Type} (s : Exec σ) :
    (flagClosed s).delivered = s.delivered := by
  unfold flagClosed
  split <;> rfl

theorem dispatchStep_runner {σ : Type} (app : App σ) (s : Exec σ) (e : Event) :
    (dispatchStep app s e).runner = s.runner := by
  unfold dispatchStep
  rw [foldl_applyCmd_runner]

theorem dispatchStep_delivered {σ : Type} (app : App σ) (s : Exec σ) (e : Event) :
    (dispatchStep app s e).delivered = s.delivered ++ [e] := by
  unfold dispatchStep
  rw [foldl_applyCmd_delivered]

theorem dispatchStep_events {σ : Type} (app : App σ) (s : Exec σ) (e : Event) :
    ∃ t, (dispatchStep app s e).events = s.events ++ t
      ∧ ∀ x ∈ t, x = Event.userWakeUp := by
  unfold dispatchStep
  exact foldl_applyCmd_events _ _

theorem dispatchStep_inv {σ : Type} (app : App σ) (w : WindowId) (s : Exec σ) (e : Event) :
    StepInv app w s (dispatchStep app s e) where
  runner_eq := dispatchStep_runner app s e
  teardown_eq := by unfold dispatchStep; rw [foldl_applyCmd_teardown]
  exit_mono := fun h => by unfold dispatchStep; exact foldl_applyCmd_exit _ _ h
  deliv_mono := ⟨[e], dispatchStep_delivered app s e⟩
  events_sub := by
    intro st _ x hx
    obtain ⟨t, ht, hall⟩ := dispatchStep_events app s e
    rw [ht] at hx
    rcases List.mem_append.mp hx with h | h
    · exact Or.inl h
    · exact Or.inr (hall x h)
  redraw_mem := fun id h => by
    unfold dispatchStep; exact foldl_applyCmd_redraw_mem _ _ id h
  redraw_nodup := fun h => by
    unfold dispatchStep; exact foldl_applyCmd_redraw_nodup _ _ h
  redraw_not_mem := fun ha h => by
    unfold dispatchStep
    exact foldl_applyCmd_redraw_not_mem _ _ _ (ha s.appState e) h
  destroy_mem := fun id h => by
    unfold dispatchStep; exact foldl_applyCmd_destroy_mem _ _ id h
  destroy_not_mem := fun ha h => by
    unfold dispatchStep
    exact foldl_applyCmd_destroy_not_mem _ _ _ (ha s.appState e) h
  exit_events := fun _ => by
    obtain ⟨t, ht, _⟩ := dispatchStep_events app s e
    exact ⟨t, ht⟩

theorem pumpProxy_runner {σ : Type} (s : Exec σ) : (pumpProxy s).runner = s.runner := by
  unfold pumpProxy
  split <;> rfl

theorem pumpProxy_exitFlag {σ : Type} (s : Exec σ) :
    (pumpProxy s).exitFlag = s.exitFlag := by
  unfold pumpProxy
  split <;> rfl

theorem pumpProxy_delivered {σ : Type} (s : Exec σ) :
    (pumpProxy s).delivered = s.delivered := by
  unfold pumpProxy
  split <;> rfl

theorem pumpProxy_events {σ : Type} (s : Exec σ) :
    ∃ t, (pumpProxy s).events = s.events ++ t ∧ ∀ x ∈ t, x = Event.userWakeUp := by
  unfold pumpProxy
  split
  · exact ⟨[Event.userWakeUp], rfl, by simp⟩
  · exact ⟨[], by simp, by simp⟩

theorem pumpProxy_inv {σ : Type} (app : App σ) (w : WindowId) (s : Exec σ) :
    StepInv app w s (pumpProxy s) := by
  unfold pumpProxy
  split
  · exact { StepInv.rfl app w s with
      events_sub := by
        intro st _ x hx
        rcases List.mem_append.mp hx with h | h
        · exact Or.inl h
        · exact Or.inr (by simpa using h)
      exit_events := fun _ => ⟨[Event.userWakeUp], Eq.refl _⟩ }
  · exact StepInv.rfl app w s

theorem popEvent_spec {σ : Type} {s s4 : Exec σ} {e2 : Event}
    (h : popEvent s = some (s4, e2)) :
    s.events = e2 :: s4.events
    ∧ s4.control_flow = s.control_flow ∧ s4.exitFlag = s.exitFlag
    ∧ s4.runner = s.runner ∧ s4.all_canvases = s.all_canvases
    ∧ s4.redraw_pending = s.redraw_pending ∧ s4.destroy_pending = s.destroy_pending
    ∧ s4.proxy_pending = s.proxy_pending ∧ s4.delivered = s.delivered
    ∧ s4.teardown_count = s.teardown_count ∧ s4.appState = s.appState := by
  unfold popEvent at h
  split at h
  · exact absurd h (by simp)
  next e0 rest heq =>
    simp only [Option.some_inj, Prod.mk.injEq] at h
    obtain ⟨h1, h2⟩ := h
    subst h2
    rw [← h1, heq]
    exact ⟨Eq.refl _, Eq.refl _, Eq.refl _, Eq.refl _, Eq.refl _, Eq.refl _, Eq.refl _,
      Eq.refl _, Eq.refl _, Eq.refl _, Eq.refl _⟩

theorem popEvent_inv {σ : Type} (app : App σ) (w : WindowId) {s s4 : Exec σ} {e2 : Event}
    (h : popEvent s = some (s4, e2)) (hex : s.exitFlag = false) :
    StepInv app w s s4 := by
  obtain ⟨hev, hcf, hexf, hrun, hac, hrp, hdp, hpp, hdel, htd, hap⟩ := popEvent_spec h
  exact {
    runner_eq := hrun
    teardown_eq := htd
    exit_mono := fun hh => absurd hh (by rw [hex]; simp)
    deliv_mono := ⟨[], by rw [hdel]; simp⟩
    events_sub := fun _ _ x hx => Or.inl (by rw [hev]; exact List.mem_cons_of_mem _ hx)
    redraw_mem := fun id hh => by rw [hrp]; exact hh
    redraw_nodup := fun hh => by rw [hrp]; exact hh
    redraw_not_mem := fun _ hh => by rw [hrp]; exact hh
    destroy_mem := fun id hh => by rw [hdp]; exact hh
    destroy_not_mem := fun _ hh => by rw [hdp]; exact hh
    exit_events := fun hh => absurd hh (by rw [hex]; simp) }

/-- `handle_event` at successor fuel: dispatch, then the queue-draining
tail. -/
theorem handleEvent_succ {σ : Type} (app : App σ) (fuel : Nat) (s : Exec σ) (e : Event) :
    handleEvent app (fuel+1) s e =
      match (flagClosed s).runner with
      | .running _ => afterDispatch app fuel (dispatchStep app (flagClosed s) e)
      | .pending => some { flagClosed s with events := (flagClosed s).events ++ [e] }
      | .destroyed => some (flagClosed s)
      | .initializing _ => none := by
  rw [handleEvent]
  rcases (flagClosed s).runner with _ | st | st | _ <;> rfl

theorem afterDispatch_inv_of {σ : Type} (app : App σ) (w : WindowId) (fuel : Nat)
    (hP : ∀ (s : Exec σ) e s', handleEvent app fuel s e = some s' → StepInv app w s s') :
    ∀ (s3 s' : Exec σ), afterDispatch app fuel s3 = some s' → StepInv app w s3 s' := by
  intro s3 s' h
  rw [afterDispatch] at h
  split at h
  · simp only [Option.some_inj] at h
    subst h
    exact StepInv.rfl app w s3
  next hex =>
    split at h
    next st hst =>
      split at h
      next hpop =>
        simp only [Option.some_inj] at h
        subst h
        exact pumpProxy_inv app w s3
      next s4 e2 hpop =>
        have hex3 : (pumpProxy s3).exitFlag = false := by
          rw [pumpProxy_exitFlag]
          cases hb : s3.exitFlag
          · rfl
          · exact absurd hb hex
        exact ((pumpProxy_inv app w s3).comp (popEvent_inv app w hpop hex3)).comp
          (hP _ _ _ h)
    next hne =>
      simp only [Option.some_inj] at h
      subst h
      exact StepInv.rfl app w s3

theorem handleEvent_inv_of {σ : Type} (app : App σ) (w : WindowId) (fuel : Nat)
    (hQ : ∀ (s3 s' : Exec σ), afterDispatch app fuel s3 = some s' → StepInv app w s3 s') :
    ∀ (s : Exec σ) e s', handleEvent app (fuel+1) s e = some s' → StepInv app w s s' := by
  intro s e s' h
  rw [handleEvent_succ] at h
  split at h
  next st hst =>
    exact ((flagClosed_inv app w s).comp
      (dispatchStep_inv app w (flagClosed s) e)).comp (hQ _ _ h)
  next hst =>
    simp only [Option.some_inj] at h
    subst h
    refine (flagClosed_inv app w s).comp ?_
    exact {
      runner_eq := Eq.refl _
      teardown_eq := Eq.refl _
      exit_mono := fun hh => hh
      deliv_mono := ⟨[], by simp⟩
      events_sub := by
        intro st2 hrun x hx
        rw [hst] at hrun
        simp at hrun
      redraw_mem := fun id hh => hh
      redraw_nodup := fun hh => hh
      redraw_not_mem := fun _ hh => hh
      destroy_mem := fun id hh => hh
      destroy_not_mem := fun _ hh => hh
      exit_events := fun _ => ⟨[e], Eq.refl _⟩ }
  next hst =>
    simp only [Option.some_inj] at h
    subst h
    exact flagClosed_inv app w s
  next st hst =>
    exact absurd h (by simp)

/-- The dispatch invariants hold across `handle_event` and its queue-draining
tail, at every fuel. -/
theorem handleEvent_inv {σ : Type} (app : App σ) (w : WindowId) : ∀ (fuel : Nat),
    (∀ (s : Exec σ) e s', handleEvent app fuel s e = some s' → StepInv app w s s')
    ∧ (∀ (s3 s' : Exec σ), afterDispatch app fuel s3 = some s' → StepInv app w s3 s') := by
  intro fuel
  induction fuel with
  | zero =>
    have hP : ∀ (s : Exec σ) e s', handleEvent app 0 s e = some s' →
        StepInv app w s s' := by
      intro s e s' h
      rw [handleEvent] at h
      exact absurd h (by simp)
    exact ⟨hP, afterDispatch_inv_of app w 0 hP⟩
  | succ fuel ih =>
    have hP := handleEvent_inv_of app w fuel ih.2
    exact ⟨hP, afterDispatch_inv_of app w (fuel+1) hP⟩

theorem StepInv.toCore {σ : Type} {app : App σ} {w : WindowId} {s s' : Exec σ}
    (h : StepInv app w s s') : CoreInv s s' where
  runner_eq := h.runner_eq
  teardown_eq := h.teardown_eq
  exit_mono := h.exit_mono
  deliv_mono := h.deliv_mono
  events_sub := h.events_sub
  exit_events := h.exit_events

theorem CoreInv.same {σ : Type} {s s' : Exec σ} (hr : s'.runner = s.runner)
    (ht : s'.teardown_count = s.teardown_count) (he : s'.exitFlag = s.exitFlag)
    (hd : s'.delivered = s.delivered) (hv : s'.events = s.events) : CoreInv s s' where
  runner_eq := hr
  teardown_eq := ht
  exit_mono := fun h => he.trans h
  deliv_mono := ⟨[], by rw [hd, List.append_nil]⟩
  events_sub := fun _ _ x hx => Or.inl (hv ▸ hx)
  exit_events := fun _ => ⟨[], by rw [hv, List.append_nil]⟩

theorem CoreInv.trans {σ : Type} {s1 s2 s3 : Exec σ}
    (h12 : CoreInv s1 s2) (h23 : CoreInv s2 s3) : CoreInv s1 s3 where
  runner_eq := h23.runner_eq.trans h12.runner_eq
  teardown_eq := h23.teardown_eq.trans h12.teardown_eq
  exit_mono := fun h => h23.exit_mono (h12.exit_mono h)
  deliv_mono := by
    obtain ⟨t1, ht1⟩ := h12.deliv_mono
    obtain ⟨t2, ht2⟩ := h23.deliv_mono
    exact ⟨t1 ++ t2, by rw [ht2, ht1, List.append_assoc]⟩
  events_sub := by
    intro st hrun x hx
    rcases h23.events_sub st (h12.runner_eq.trans hrun) x hx with h | h
    · exact h12.events_sub st hrun x h
    · exact Or.inr h
  exit_events := by
    intro h
    obtain ⟨t1, ht1⟩ := h12.exit_events h
    obtain ⟨t2, ht2⟩ := h23.exit_events (h12.exit_mono h)
    exact ⟨t1 ++ t2, by rw [ht2, ht1, List.append_assoc]⟩

theorem count_mono_append {α : Type} [DecidableEq α] {d d' : List α}
    (h : ∃ t, d' = d ++ t) (a : α) : d.count a ≤ d'.count a := by
  obtain ⟨t, rfl⟩ := h
  rw [List.count_append]
  exact Nat.le_add_right _ _

theorem redrawEv_ne_userWakeUp (w : WindowId) : redrawEv w ≠ Event.userWakeUp := by
  simp [redrawEv]

theorem not_mem_of_append_wakeUps {w : WindowId} {l l' : List Event} {t : List Event}
    (hne : redrawEv w ∉ l) (ht : l' = l ++ t) (hall : ∀ x ∈ t, x = Event.userWakeUp) :
    redrawEv w ∉ l' := by
  rw [ht]
  intro hx
  rcases List.mem_append.mp hx with hx | hx
  · exact hne hx
  · exact redrawEv_ne_userWakeUp w (hall _ hx)

theorem afterDispatch_count_of {σ : Type} (app : App σ) (w : WindowId) (fuel : Nat)
    (hP : ∀ (s : Exec σ) e s' st, s.runner = RunnerEnum.running st →
      redrawEv w ∉ s.events → handleEvent app fuel s e = some s' →
      s'.delivered.count (redrawEv w) = s.delivered.count (redrawEv w)
        + (if e = redrawEv w then 1 else 0)
      ∧ redrawEv w ∉ s'.events) :
    ∀ (s3 s' : Exec σ) st, s3.runner = RunnerEnum.running st →
      redrawEv w ∉ s3.events → afterDispatch app fuel s3 = some s' →
      s'.delivered.count (redrawEv w) = s3.delivered.count (redrawEv w)
      ∧ redrawEv w ∉ s'.events := by
  intro s3 s' st hrun hne h
  rw [afterDispatch] at h
  split at h
  · simp only [Option.some_inj] at h
    subst h
    exact ⟨rfl, hne⟩
  next hex =>
    split at h
    next st2 hst2 =>
      have hpne : redrawEv w ∉ (pumpProxy s3).events := by
        obtain ⟨t, ht, hall⟩ := pumpProxy_events s3
        exact not_mem_of_append_wakeUps hne ht hall
      split at h
      next hpop =>
        simp only [Option.some_inj] at h
        subst h
        exact ⟨by rw [pumpProxy_delivered], hpne⟩
      next s4 e2 hpop =>
        obtain ⟨hev, _, _, h4run, _, _, _, _, h4del, _, _⟩ := popEvent_spec hpop
        have h4run' : s4.runner = RunnerEnum.running st := by
          rw [h4run, pumpProxy_runner, hrun]
        have h4ne : redrawEv w ∉ s4.events := fun hx =>
          hpne (hev ▸ List.mem_cons_of_mem _ hx)
        have he2 : e2 ≠ redrawEv w := fun hx =>
          hpne (hev ▸ hx ▸ List.mem_cons_self _ _)
        obtain ⟨hcnt, hne'⟩ := hP _ _ _ _ h4run' h4ne h
        refine ⟨?_, hne'⟩
        rw [hcnt, if_neg he2, h4del, pumpProxy_delivered, Nat.add_zero]
    next hne2 =>
      simp only [Option.some_inj] at h
      subst h
      exact ⟨rfl, hne⟩

theorem handleEvent_count_of {σ : Type} (app : App σ) (w : WindowId) (fuel : Nat)
    (hQ : ∀ (s3 s' : Exec σ) st, s3.runner = RunnerEnum.running st →
      redrawEv w ∉ s3.events → afterDispatch app fuel s3 = some s' →
      s'.delivered.count (redrawEv w) = s3.delivered.count (redrawEv w)
      ∧ redrawEv w ∉ s'.events) :
    ∀ (s : Exec σ) e s' st, s.runner = RunnerEnum.running st →
      redrawEv w ∉ s.events → handleEvent app (fuel+1) s e = some s' →
      s'.delivered.count (redrawEv w) = s.delivered.count (redrawEv w)
        + (if e = redrawEv w then 1 else 0)
      ∧ redrawEv w ∉ s'.events := by
  intro s e s' st hrun hne h
  rw [handleEvent_succ] at h
  split at h
  next st2 hst2 =>
    have h3run : (dispatchStep app (flagClosed s) e).runner = RunnerEnum.running st := by
      rw [dispatchStep_runner, flagClosed_runner, hrun]
    have h3ne : redrawEv w ∉ (dispatchStep app (flagClosed s) e).events := by
      obtain ⟨t, ht, hall⟩ := dispatchStep_events app (flagClosed s) e
      rw [flagClosed_events] at ht
      exact not_mem_of_append_wakeUps hne ht hall
    obtain ⟨hcnt, hne'⟩ := hQ _ _ _ h3run h3ne h
    refine ⟨?_, hne'⟩
    rw [hcnt, dispatchStep_delivered, flagClosed_delivered, List.count_append,
      List.count_singleton']
  next hst =>
    rw [flagClosed_runner, hrun] at hst
    simp at hst
  next hst =>
    rw [flagClosed_runner, hrun] at hst
    simp at hst
  next st2 hst =>
    exact absurd h (by simp)

/-- The redraw-delivery count across `handle_event`: while the runner is
running and the target redraw envelope is not sitting in the queue, the
number of delivered `RedrawRequested` events for `w` grows exactly by the
dispatched event's own contribution, and the envelope never enters the
queue. -/
theorem handleEvent_count {σ : Type} (app : App σ) (w : WindowId) : ∀ (fuel : Nat),
    (∀ (s : Exec σ) e s' st, s.runner = RunnerEnum.running st →
      redrawEv w ∉ s.events → handleEvent app fuel s e = some s' →
      s'.delivered.count (redrawEv w) = s.delivered.count (redrawEv w)
        + (if e = redrawEv w then 1 else 0)
      ∧ redrawEv w ∉ s'.events)
    ∧ (∀ (s3 s' : Exec σ) st, s3.runner = RunnerEnum.running st →
      redrawEv w ∉ s3.events → afterDispatch app fuel s3 = some s' →
      s'.delivered.count (redrawEv w) = s3.delivered.count (redrawEv w)
      ∧ redrawEv w ∉ s'.events) := by
  intro fuel
  induction fuel with
  | zero =>
    have hP : ∀ (s : Exec σ) e s' st, s.runner = RunnerEnum.running st →
        redrawEv w ∉ s.events → handleEvent app 0 s e = some s' →
        s'.delivered.count (redrawEv w) = s.delivered.count (redrawEv w)
          + (if e = redrawEv w then 1 else 0)
        ∧ redrawEv w ∉ s'.events := by
      intro s e s' st _ _ h
      rw [handleEvent] at h
      exact absurd h (by simp)
    exact ⟨hP, afterDispatch_count_of app w 0 hP⟩
  | succ fuel ih =>
    have hP := handleEvent_count_of app w fuel ih.2
    exact ⟨hP, afterDispatch_count_of app w (fuel+1) hP⟩

/-- While the runner is running, `handle_event` delivers its argument first:
the ghost trace is extended with the dispatched event followed by whatever
the queue drain delivered. -/
theorem handleEvent_head {σ : Type} (app : App σ) (fuel : Nat) (s : Exec σ)
    (e : Event) (s' : Exec σ) (st : LoopState) (hrun : s.runner = RunnerEnum.running st)
    (h : handleEvent app fuel s e = some s') :
    ∃ t, s'.delivered = s.delivered ++ e :: t := by
  cases fuel with
  | zero =>
    rw [handleEvent] at h
    exact absurd h (by simp)
  | succ fuel =>
    rw [handleEvent_succ] at h
    split at h
    next st2 hst2 =>
      obtain ⟨t, ht⟩ := ((handleEvent_inv app 0 fuel).2 _ _ h).deliv_mono
      refine ⟨t, ?_⟩
      rw [ht, dispatchStep_delivered, flagClosed_delivered, List.append_assoc]
      rfl
    next hst =>
      rw [flagClosed_runner, hrun] at hst
      simp at hst
    next hst =>
      rw [flagClosed_runner, hrun] at hst
      simp at hst
    next st2 hst =>
      exact absurd h (by simp)

theorem handleEvents_inv {σ : Type} (app : App σ) (w : WindowId) (fuel : Nat) :
    ∀ (evs : List Event) (s s' : Exec σ),
      handleEvents app fuel evs s = some s' → StepInv app w s s' := by
  intro evs
  induction evs with
  | nil =>
    intro s s' h
    unfold handleEvents at h
    simp only [Option.some_inj] at h
    subst h
    exact StepInv.rfl app w s
  | cons e rest ih =>
    intro s s' h
    unfold handleEvents at h
    split at h
    · exact absurd h (by simp)
    next s2 hs2 =>
      exact ((handleEvent_inv app w fuel).1 _ _ _ hs2).comp (ih _ _ h)

theorem handleEvents_count {σ : Type} (app : App σ) (w : WindowId) (fuel : Nat) :
    ∀ (evs : List Event) (s s' : Exec σ) (st : LoopState),
      s.runner = RunnerEnum.running st → redrawEv w ∉ s.events →
      handleEvents app fuel evs s = some s' →
      s'.delivered.count (redrawEv w)
        = s.delivered.count (redrawEv w) + evs.count (redrawEv w)
      ∧ redrawEv w ∉ s'.events := by
  intro evs
  induction evs with
  | nil =>
    intro s s' st hrun hne h
    unfold handleEvents at h
    simp only [Option.some_inj] at h
    subst h
    simp [hne]
  | cons e rest ih =>
    intro s s' st hrun hne h
    unfold handleEvents at h
    split at h
    · exact absurd h (by simp)
    next s2 hs2 =>
      obtain ⟨hc2, hne2⟩ := (handleEvent_count app w fuel).1 _ _ _ _ hrun hne hs2
      have hrun2 : s2.runner = RunnerEnum.running st := by
        rw [((handleEvent_inv app w fuel).1 _ _ _ hs2).runner_eq, hrun]
      obtain ⟨hc', hne'⟩ := ih _ _ _ hrun2 hne2 h
      refine ⟨?_, hne'⟩
      rw [hc', hc2, List.count_cons]
      by_cases he : e = redrawEv w
      all_goals simp [he]
      all_goals omega

theorem processDestroy_core {σ : Type} (app : App σ) : ∀ (fuel : Nat) (s s' : Exec σ),
    processDestroyPending app fuel s = some s' → CoreInv s s' := by
  intro fuel
  induction fuel with
  | zero =>
    intro s s' h
    rw [processDestroyPending] at h
    exact absurd h (by simp)
  | succ fuel ih =>
    intro s s' h
    rw [processDestroyPending] at h
    split at h
    · simp only [Option.some_inj] at h
      subst h
      exact CoreInv.same (Eq.refl _) (Eq.refl _) (Eq.refl _) (Eq.refl _) (Eq.refl _)
    next id rest hdp =>
      dsimp only at h
      split at h
      · exact absurd h (by simp)
      next s2 hs2 =>
        have c1 : CoreInv s ({ s with
            destroy_pending := rest
            all_canvases := s.all_canvases.filter fun x => x ≠ id } : Exec σ) :=
          CoreInv.same rfl rfl rfl rfl rfl
        have c2 := ((handleEvent_inv app 0 fuel).1 _ _ _ hs2).toCore
        have c3 : CoreInv s2 ({ s2 with
            redraw_pending := s2.redraw_pending.filter fun x => x ≠ id } : Exec σ) :=
          CoreInv.same rfl rfl rfl rfl rfl
        exact (c1.trans c2).trans (c3.trans (ih _ _ h))

theorem processDestroy_drained {σ : Type} (app : App σ) : ∀ (fuel : Nat) (s s' : Exec σ),
    processDestroyPending app fuel s = some s' → s'.destroy_pending = [] := by
  intro fuel
  induction fuel with
  | zero =>
    intro s s' h
    rw [processDestroyPending] at h
    exact absurd h (by simp)
  | succ fuel ih =>
    intro s s' h
    rw [processDestroyPending] at h
    split at h
    next hdp =>
      simp only [Option.some_inj] at h
      subst h
      exact hdp
    next id rest hdp =>
      dsimp only at h
      split at h
      · exact absurd h (by simp)
      next s2 hs2 =>
        exact ih _ _ h

theorem processDestroy_count {σ : Type} (app : App σ) (w : WindowId) :
    ∀ (fuel : Nat) (s s' : Exec σ) (st : LoopState),
      s.runner = RunnerEnum.running st → redrawEv w ∉ s.events →
      processDestroyPending app fuel s = some s' →
      s'.delivered.count (redrawEv w) = s.delivered.count (redrawEv w)
      ∧ redrawEv w ∉ s'.events := by
  intro fuel
  induction fuel with
  | zero =>
    intro s s' st _ _ h
    rw [processDestroyPending] at h
    exact absurd h (by simp)
  | succ fuel ih =>
    intro s s' st hrun hne h
    rw [processDestroyPending] at h
    split at h
    · simp only [Option.some_inj] at h
      subst h
      exact ⟨rfl, hne⟩
    next id rest hdp =>
      dsimp only at h
      split at h
      · exact absurd h (by simp)
      next s2 hs2 =>
        have hd : Event.windowEvent id WindowEvent.destroyed ≠ redrawEv w := by
          simp [redrawEv]
        obtain ⟨hc2, hne2⟩ :=
          (handleEvent_count app w fuel).1 _ _ _ st (by exact hrun) (by exact hne) hs2
        have hc2a : s2.delivered.count (redrawEv w) = s.delivered.count (redrawEv w)
            + (if Event.windowEvent id WindowEvent.destroyed = redrawEv w
                then 1 else 0) := hc2
        have hrun2 : s2.runner = RunnerEnum.running st := by
          rw [((handleEvent_inv app w fuel).1 _ _ _ hs2).runner_eq]
          exact hrun
        obtain ⟨hc', hne'⟩ := ih _ _ st (by exact hrun2) (by exact hne2) h
        have hc'a : s'.delivered.count (redrawEv w) = s2.delivered.count (redrawEv w) := hc'
        refine ⟨?_, hne'⟩
        rw [hc'a, hc2a, if_neg hd, Nat.add_zero]

theorem processDestroy_nodup {σ : Type} (app : App σ) (w : WindowId) :
    ∀ (fuel : Nat) (s s' : Exec σ), s.redraw_pending.Nodup →
      processDestroyPending app fuel s = some s' → s'.redraw_pending.Nodup := by
  intro fuel
  induction fuel with
  | zero =>
    intro s s' _ h
    rw [processDestroyPending] at h
    exact absurd h (by simp)
  | succ fuel ih =>
    intro s s' hnd h
    rw [processDestroyPending] at h
    split at h
    · simp only [Option.some_inj] at h
      subst h
      exact hnd
    next id rest hdp =>
      dsimp only at h
      split at h
      · exact absurd h (by simp)
      next s2 hs2 =>
        have hnd2 : s2.redraw_pending.Nodup :=
          ((handleEvent_inv app w fuel).1 _ _ _ hs2).redraw_nodup hnd
        exact ih _ _ (List.Nodup.filter _ hnd2) h

theorem processDestroy_redraw_not {σ : Type} (app : App σ) (w : WindowId)
    (happ : appNoRedraw app w) : ∀ (fuel : Nat) (s s' : Exec σ),
      w ∉ s.redraw_pending → processDestroyPending app fuel s = some s' →
      w ∉ s'.redraw_pending := by
  intro fuel
  induction fuel with
  | zero =>
    intro s s' _ h
    rw [processDestroyPending] at h
    exact absurd h (by simp)
  | succ fuel ih =>
    intro s s' hnm h
    rw [processDestroyPending] at h
    split at h
    · simp only [Option.some_inj] at h
      subst h
      exact hnm
    next id rest hdp =>
      dsimp only at h
      split at h
      · exact absurd h (by simp)
      next s2 hs2 =>
        have hnm2 : w ∉ s2.redraw_pending :=
          ((handleEvent_inv app w fuel).1 _ _ _ hs2).redraw_not_mem happ hnm
        refine ih _ _ ?_ h
        intro hx
        exact hnm2 (List.mem_of_mem_filter hx)

theorem processDestroy_redraw_removed {σ : Type} (app : App σ) (w : WindowId)
    (happ : appNoRedraw app w) : ∀ (fuel : Nat) (s s' : Exec σ),
      w ∈ s.destroy_pending → processDestroyPending app fuel s = some s' →
      w ∉ s'.redraw_pending := by
  intro fuel
  induction fuel with
  | zero =>
    intro s s' _ h
    rw [processDestroyPending] at h
    exact absurd h (by simp)
  | succ fuel ih =>
    intro s s' hw h
    rw [processDestroyPending] at h
    split at h
    next hdp =>
      rw [hdp] at hw
      exact absurd hw (by simp)
    next id rest hdp =>
      dsimp only at h
      split at h
      · exact absurd h (by simp)
      next s2 hs2 =>
        by_cases hid : id = w
        · subst hid
          refine processDestroy_redraw_not app id happ _ _ _ ?_ h
          intro hx
          have hpx := List.of_mem_filter hx
          simp at hpx
        · refine ih _ _ ?_ h
          have hwrest : w ∈ rest := by
            rw [hdp] at hw
            rcases List.mem_cons.mp hw with h1 | h1
            · exact absurd h1.symm hid
            · exact h1
          exact ((handleEvent_inv app w fuel).1 _ _ _ hs2).destroy_mem w hwrest

theorem processDestroy_redraw_kept {σ : Type} (app : App σ) (w : WindowId)
    (happ : appNoDestroy app w) : ∀ (fuel : Nat) (s s' : Exec σ),
      w ∉ s.destroy_pending → w ∈ s.redraw_pending →
      processDestroyPending app fuel s = some s' → w ∈ s'.redraw_pending := by
  intro fuel
  induction fuel with
  | zero =>
    intro s s' _ _ h
    rw [processDestroyPending] at h
    exact absurd h (by simp)
  | succ fuel ih =>
    intro s s' hnd hw h
    rw [processDestroyPending] at h
    split at h
    · simp only [Option.some_inj] at h
      subst h
      exact hw
    next id rest hdp =>
      dsimp only at h
      split at h
      · exact absurd h (by simp)
      next s2 hs2 =>
        have hidw : id ≠ w := by
          intro hx
          rw [hdp, hx] at hnd
          exact hnd (List.mem_cons_self _ _)
        have hnrest : w ∉ rest := by
          intro hx
          rw [hdp] at hnd
          exact hnd (List.mem_cons_of_mem _ hx)
        have inv2 := (handleEvent_inv app w fuel).1 _ _ _ hs2
        have hwid : w ≠ id := fun hx => hidw hx.symm
        refine ih _ _ ?_ ?_ h
        · exact inv2.destroy_not_mem happ (by exact hnrest)
        · refine List.mem_filter.mpr ⟨inv2.redraw_mem w (by exact hw), ?_⟩
          simp [hwid]

theorem processDestroy_destroyed_count {σ : Type} (app : App σ) (w : WindowId) :
    ∀ (fuel : Nat) (s s' : Exec σ) (st : LoopState),
      s.runner = RunnerEnum.running st → w ∈ s.destroy_pending →
      processDestroyPending app fuel s = some s' →
      s.delivered.count (destroyEv w) + 1 ≤ s'.delivered.count (destroyEv w) := by
  intro fuel
  induction fuel with
  | zero =>
    intro s s' st _ _ h
    rw [processDestroyPending] at h
    exact absurd h (by simp)
  | succ fuel ih =>
    intro s s' st hrun hw h
    rw [processDestroyPending] at h
    split at h
    next hdp =>
      rw [hdp] at hw
      exact absurd hw (by simp)
    next id rest hdp =>
      dsimp only at h
      split at h
      · exact absurd h (by simp)
      next s2 hs2 =>
        by_cases hid : id = w
        · subst hid
          obtain ⟨t, ht⟩ := handleEvent_head app fuel _ _ _ st (by exact hrun) hs2
          have hta : s2.delivered
              = s.delivered ++ Event.windowEvent id WindowEvent.destroyed :: t := ht
          have h2 : s.delivered.count (destroyEv id) + 1
              ≤ s2.delivered.count (destroyEv id) := by
            rw [hta, List.count_append, List.count_cons]
            have hbeq : (Event.windowEvent id WindowEvent.destroyed == destroyEv id)
                = true := by
              simp [destroyEv]
            rw [hbeq, if_pos rfl]
            omega
          have h3 : s2.delivered.count (destroyEv id)
              ≤ s'.delivered.count (destroyEv id) :=
            count_mono_append (processDestroy_core app _ _ _ h).deliv_mono _
          omega
        · have hwrest : w ∈ rest := by
            rw [hdp] at hw
            rcases List.mem_cons.mp hw with h1 | h1
            · exact absurd h1.symm hid
            · exact h1
          have inv2 := (handleEvent_inv app w fuel).1 _ _ _ hs2
          have hrun2 : s2.runner = RunnerEnum.running st := by
            rw [inv2.runner_eq]
            exact hrun
          have h1 : s.delivered.count (destroyEv w)
              ≤ s2.delivered.count (destroyEv w) :=
            count_mono_append inv2.deliv_mono _
          have h2a := ih _ _ st (by exact hrun2) (by exact inv2.destroy_mem w hwrest) h
          have h2 : s2.delivered.count (destroyEv w) + 1
              ≤ s'.delivered.count (destroyEv w) := h2a
          omega

theorem drainRedraws_inv {σ : Type} (app : App σ) (w : WindowId) (fuel : Nat) :
    ∀ (L : List WindowId) (s s' : Exec σ),
      drainRedraws app fuel L s = some s' → StepInv app w s s' := by
  intro L
  induction L with
  | nil =>
    intro s s' h
    unfold drainRedraws at h
    simp only [Option.some_inj] at h
    subst h
    exact StepInv.rfl app w s
  | cons id rest ih =>
    intro s s' h
    unfold drainRedraws at h
    split at h
    · exact absurd h (by simp)
    next s2 hs2 =>
      exact ((handleEvent_inv app w fuel).1 _ _ _ hs2).comp (ih _ _ h)

theorem drainRedraws_count {σ : Type} (app : App σ) (w : WindowId) (fuel : Nat) :
    ∀ (L : List WindowId) (s s' : Exec σ) (st : LoopState),
      s.runner = RunnerEnum.running st → redrawEv w ∉ s.events →
      drainRedraws app fuel L s = some s' →
      s'.delivered.count (redrawEv w) = s.delivered.count (redrawEv w) + L.count w
      ∧ redrawEv w ∉ s'.events := by
  intro L
  induction L with
  | nil =>
    intro s s' st hrun hne h
    unfold drainRedraws at h
    simp only [Option.some_inj] at h
    subst h
    simp [hne]
  | cons id rest ih =>
    intro s s' st hrun hne h
    unfold drainRedraws at h
    split at h
    · exact absurd h (by simp)
    next s2 hs2 =>
      obtain ⟨hc2, hne2⟩ := (handleEvent_count app w fuel).1 _ _ _ st hrun hne hs2
      have hrun2 : s2.runner = RunnerEnum.running st := by
        rw [((handleEvent_inv app w fuel).1 _ _ _ hs2).runner_eq, hrun]
      obtain ⟨hc', hne'⟩ := ih _ _ st hrun2 hne2 h
      refine ⟨?_, hne'⟩
      have hiff : Event.windowEvent id WindowEvent.redrawRequested = redrawEv w ↔ id = w := by
        simp [redrawEv]
      rw [hc', hc2, List.count_cons]
      by_cases hid : id = w
      · have hb : (id == w) = true := by simp [hid]
        rw [if_pos (hiff.mpr hid), hb, if_pos rfl]
        omega
      · have hb : (id == w) = false := by simp [hid]
        rw [if_neg (fun hx => hid (hiff.mp hx)), hb, if_neg (by simp)]
        omega

theorem applyControlFlow_delivered {σ : Type} (s : Exec σ) (now : Nat) :
    (applyControlFlow s now).delivered = s.delivered := by
  unfold applyControlFlow
  repeat' split
  all_goals rfl

theorem applyControlFlow_teardown {σ : Type} (s : Exec σ) (now : Nat) :
    (applyControlFlow s now).teardown_count = s.teardown_count := by
  unfold applyControlFlow
  repeat' split
  all_goals rfl

theorem applyControlFlow_events {σ : Type} (s : Exec σ) (now : Nat) :
    (applyControlFlow s now).events = s.events := by
  unfold applyControlFlow
  repeat' split
  all_goals rfl

theorem applyControlFlow_exitFlag {σ : Type} (s : Exec σ) (now : Nat) :
    (applyControlFlow s now).exitFlag = s.exitFlag := by
  unfold applyControlFlow
  repeat' split
  all_goals rfl

theorem applyControlFlow_exit_runner {σ : Type} (s : Exec σ) (now : Nat)
    (st : LoopState) (hex : s.exitFlag = true) (hrun : s.runner = RunnerEnum.running st) :
    (applyControlFlow s now).runner = RunnerEnum.running LoopState.exit := by
  unfold applyControlFlow
  dsimp only
  rw [hex, if_pos rfl, hrun]

theorem applyControlFlow_waitUntil {σ : Type} (s : Exec σ) (now deadline : Nat)
    (st : LoopState) (hex : s.exitFlag = false)
    (hcf : s.control_flow = ControlFlow.waitUntil deadline)
    (hrun : s.runner = RunnerEnum.running st) :
    (applyControlFlow s now).runner = RunnerEnum.running
      (LoopState.waitUntil now deadline (if deadline ≤ now then 0 else deadline - now)) := by
  unfold applyControlFlow
  dsimp only
  rw [hex, if_neg (by simp), hcf, hrun]

theorem isClosed_of_exit {σ : Type} (s : Exec σ)
    (h : s.runner = RunnerEnum.running LoopState.exit) : isClosed s = true := by
  unfold isClosed
  rw [h]
  rfl

theorem handleLoopDestroyed_spec {σ : Type} (s : Exec σ) :
    (handleLoopDestroyed s).runner = RunnerEnum.destroyed
    ∧ (handleLoopDestroyed s).delivered = s.delivered
    ∧ (handleLoopDestroyed s).events = s.events
    ∧ (handleLoopDestroyed s).teardown_count = s.teardown_count + 1 :=
  ⟨Eq.refl _, Eq.refl _, Eq.refl _, Eq.refl _⟩

theorem get_append_cons {α : Type} (d : List α) (e : α) (t : List α) :
    (d ++ e :: t).get? d.length = some e := by
  induction d with
  | nil => rfl
  | cons x rest ih => simpa using ih

/-- Decomposition of a successful `run_until_cleared` into its four phases
and the closing control-flow application. -/
theorem runUntilCleared_parts {σ : Type} (app : App σ) (fuel : Nat) (s : Exec σ)
    (evs : List Event) (now : Nat) (s' : Exec σ)
    (h : runUntilCleared app fuel s evs now = some s') :
    ∃ s1 s2 s3 s4, handleEvents app fuel evs s = some s1
      ∧ processDestroyPending app fuel s1 = some s2
      ∧ drainRedraws app fuel s2.redraw_pending { s2 with redraw_pending := [] } = some s3
      ∧ handleEvent app fuel s3 Event.aboutToWait = some s4
      ∧ s' = (if isClosed (applyControlFlow s4 now) then
          handleLoopDestroyed (applyControlFlow s4 now) else applyControlFlow s4 now) := by
  unfold runUntilCleared at h
  split at h
  · exact absurd h (by simp)
  next s1 h1 =>
    split at h
    · exact absurd h (by simp)
    next s2 h2 =>
      split at h
      · exact absurd h (by simp)
      next s3 h3 =>
        split at h
        · exact absurd h (by simp)
        next s4 h4 =>
          simp only [Option.some_inj] at h
          exact ⟨s1, s2, s3, s4, h1, h2, h3, h4, h.symm⟩

/-- A char boundary never lies beyond the end of the text. -/
theorem isCharBoundary_le {text : List Nat} {i : Nat}
    (h : isCharBoundary text i = true) : i ≤ text.length := by
  unfold isCharBoundary at h
  rcases hg : text.get? i with _ | b
  · rw [hg] at h
    simp only [decide_eq_true_eq] at h
    exact Nat.le_of_eq h
  · exact Nat.le_of_lt (List.get?_eq_some.mp hg).choose

/-! ## C1 : redraw coalescing -/

/-- C1: Redraw coalescing.  However many `request_redraw` calls were made for
window `w` (the pending-redraw flag is a set membership, so inserting `w`
again is a no-op — second conjunct), one dispatch cycle that finds `w`
pending delivers exactly one `RedrawRequested` for `w`: the count of
delivered `RedrawRequested` envelopes for `w` grows by exactly one across
`run_until_cleared`, for every application that does not destroy `w`, with
no `RedrawRequested` envelope smuggled in via the incoming events or the
queue (the source never queues redraws — they exist only as set entries). -/
theorem redraw_coalescing {σ : Type} (app : App σ) (fuel : Nat) (s s' : Exec σ)
    (evs : List Event) (now : Nat) (st : LoopState) (w : WindowId)
    (hrun : s.runner = RunnerEnum.running st)
    (hnodup : s.redraw_pending.Nodup)
    (hw : w ∈ s.redraw_pending)
    (hnd : w ∉ s.destroy_pending)
    (happ : appNoDestroy app w)
    (hevs : redrawEv w ∉ evs)
    (hq : redrawEv w ∉ s.events)
    (hrc : runUntilCleared app fuel s evs now = some s') :
    s'.delivered.count (redrawEv w) = s.delivered.count (redrawEv w) + 1
    ∧ ∀ p : List WindowId, insertSet w (insertSet w p) = insertSet w p := by
  obtain ⟨s1, s2, s3, s4, h1, h2, h3, h4, hfin⟩ :=
    runUntilCleared_parts app fuel s evs now s' hrc
  have inv1 := handleEvents_inv app w fuel evs s s1 h1
  have hrun1 : s1.runner = RunnerEnum.running st := by
    rw [inv1.runner_eq]
    exact hrun
  obtain ⟨hc1, hq1⟩ := handleEvents_count app w fuel evs s s1 st hrun hq h1
  have hevs0 : evs.count (redrawEv w) = 0 := List.count_eq_zero_of_not_mem hevs
  have core2 := processDestroy_core app fuel s1 s2 h2
  have hrun2 : s2.runner = RunnerEnum.running st := by
    rw [core2.runner_eq]
    exact hrun1
  obtain ⟨hc2, hq2⟩ := processDestroy_count app w fuel s1 s2 st hrun1 hq1 h2
  have hw1 : w ∈ s1.redraw_pending := inv1.redraw_mem w hw
  have hnd1 : w ∉ s1.destroy_pending := inv1.destroy_not_mem happ hnd
  have hnodup1 : s1.redraw_pending.Nodup := inv1.redraw_nodup hnodup
  have hw2 : w ∈ s2.redraw_pending :=
    processDestroy_redraw_kept app w happ fuel s1 s2 hnd1 hw1 h2
  have hnodup2 : s2.redraw_pending.Nodup := processDestroy_nodup app w fuel s1 s2 hnodup1 h2
  have hL : s2.redraw_pending.count w = 1 := List.count_eq_one_of_mem hnodup2 hw2
  obtain ⟨hc3, hq3⟩ := drainRedraws_count app w fuel s2.redraw_pending _ s3 st
    (by exact hrun2) (by exact hq2) h3
  have hc3a : s3.delivered.count (redrawEv w)
      = s2.delivered.count (redrawEv w) + s2.redraw_pending.count w := hc3
  have hrun3 : s3.runner = RunnerEnum.running st := by
    rw [(drainRedraws_inv app w fuel s2.redraw_pending _ s3 h3).runner_eq]
    exact hrun2
  have habt : Event.aboutToWait ≠ redrawEv w := by simp [redrawEv]
  obtain ⟨hc4, _⟩ := (handleEvent_count app w fuel).1 s3 Event.aboutToWait s4 st hrun3
    (by exact hq3) h4
  have hc4a : s4.delivered.count (redrawEv w) = s3.delivered.count (redrawEv w) := by
    rw [hc4, if_neg habt, Nat.add_zero]
  have hdc : s'.delivered.count (redrawEv w) = s4.delivered.count (redrawEv w) := by
    rw [hfin]
    split
    · rw [(handleLoopDestroyed_spec _).2.1, applyControlFlow_delivered]
    · rw [applyControlFlow_delivered]
  refine ⟨?_, fun p => insertSet_idem w p⟩
  omega

/-- Witness for C1: a fresh running loop with window 5 pending a redraw and
a passive application; the first cycle delivers exactly one
`RedrawRequested` for window 5. -/
theorem redraw_coalescing_witness :
    ∃ s', runUntilCleared trivApp 10 (execAt .init [5] []) [Event.newEvents .init] 0
        = some s'
      ∧ s'.delivered.count (redrawEv 5) = 1 := by
  have hsome : (runUntilCleared trivApp 10 (execAt .init [5] [])
      [Event.newEvents .init] 0).isSome = true := by decide
  obtain ⟨s', hs'⟩ := Option.isSome_iff_exists.mp hsome
  refine ⟨s', hs', ?_⟩
  have h := (redraw_coalescing trivApp 10 (execAt .init [5] []) s'
      [Event.newEvents .init] 0 LoopState.init 5 rfl (by decide) (by decide) (by decide)
      (fun a e hmem => by simp [trivApp] at hmem) (by decide) (by decide) hs').1
  simpa [execAt] using h

/-! ## C2 : destroy-before-redraw -/

/-- C2: Destroy-before-redraw.  In a dispatch cycle where window `w` is
queued for destruction, the cycle delivers its `Destroyed` event (the
destroyed-event count strictly grows) and delivers no `RedrawRequested` for
`w` (that count is unchanged), no matter whether `w` also had a pending
redraw: `process_destroy_pending_windows` runs before the redraw drain and
removes `w`'s pending-redraw entry.  The application is assumed not to
re-request a redraw of the window it is destroying, and (as in the source,
where redraws exist only as set entries) no `RedrawRequested` envelope
arrives via the incoming events or the queue. -/
theorem destroy_before_redraw {σ : Type} (app : App σ) (fuel : Nat) (s s' : Exec σ)
    (evs : List Event) (now : Nat) (st : LoopState) (w : WindowId)
    (hrun : s.runner = RunnerEnum.running st)
    (hw : w ∈ s.destroy_pending)
    (happ : appNoRedraw app w)
    (hevs : redrawEv w ∉ evs)
    (hq : redrawEv w ∉ s.events)
    (hrc : runUntilCleared app fuel s evs now = some s') :
    s.delivered.count (destroyEv w) + 1 ≤ s'.delivered.count (destroyEv w)
    ∧ s'.delivered.count (redrawEv w) = s.delivered.count (redrawEv w) := by
  obtain ⟨s1, s2, s3, s4, h1, h2, h3, h4, hfin⟩ :=
    runUntilCleared_parts app fuel s evs now s' hrc
  have inv1 := handleEvents_inv app w fuel evs s s1 h1
  have hrun1 : s1.runner = RunnerEnum.running st := by
    rw [inv1.runner_eq]
    exact hrun
  obtain ⟨hc1, hq1⟩ := handleEvents_count app w fuel evs s s1 st hrun hq h1
  have hevs0 : evs.count (redrawEv w) = 0 := List.count_eq_zero_of_not_mem hevs
  have hw1 : w ∈ s1.destroy_pending := inv1.destroy_mem w hw
  have core2 := processDestroy_core app fuel s1 s2 h2
  have hrun2 : s2.runner = RunnerEnum.running st := by
    rw [core2.runner_eq]
    exact hrun1
  obtain ⟨hc2, hq2⟩ := processDestroy_count app w fuel s1 s2 st hrun1 hq1 h2
  have hrm : w ∉ s2.redraw_pending :=
    processDestroy_redraw_removed app w happ fuel s1 s2 hw1 h2
  have hL : s2.redraw_pending.count w = 0 := List.count_eq_zero_of_not_mem hrm
  obtain ⟨hc3, hq3⟩ := drainRedraws_count app w fuel s2.redraw_pending _ s3 st
    (by exact hrun2) (by exact hq2) h3
  have hc3a : s3.delivered.count (redrawEv w)
      = s2.delivered.count (redrawEv w) + s2.redraw_pending.count w := hc3
  have hrun3 : s3.runner = RunnerEnum.running st := by
    rw [(drainRedraws_inv app w fuel s2.redraw_pending _ s3 h3).runner_eq]
    exact hrun2
  have habt : Event.aboutToWait ≠ redrawEv w := by simp [redrawEv]
  obtain ⟨hc4, _⟩ := (handleEvent_count app w fuel).1 s3 Event.aboutToWait s4 st hrun3
    (by exact hq3) h4
  have hc4a : s4.delivered.count (redrawEv w) = s3.delivered.count (redrawEv w) := by
    rw [hc4, if_neg habt, Nat.add_zero]
  have hdc : s'.delivered = s4.delivered := by
    rw [hfin]
    split
    · rw [(handleLoopDestroyed_spec _).2.1, applyControlFlow_delivered]
    · rw [applyControlFlow_delivered]
  constructor
  · have hd0 : s.delivered.count (destroyEv w) ≤ s1.delivered.count (destroyEv w) :=
      count_mono_append inv1.deliv_mono _
    have hd1 := processDestroy_destroyed_count app w fuel s1 s2 st hrun1 hw1 h2
    have hd2 : s2.delivered.count (destroyEv w) ≤ s3.delivered.count (destroyEv w) := by
      have := count_mono_append
        (drainRedraws_inv app w fuel s2.redraw_pending _ s3 h3).deliv_mono (destroyEv w)
      exact this
    have hd3 : s3.delivered.count (destroyEv w) ≤ s4.delivered.count (destroyEv w) :=
      count_mono_append ((handleEvent_inv app w fuel).1 _ _ _ h4).deliv_mono _
    have hd4 : s'.delivered.count (destroyEv w) = s4.delivered.count (destroyEv w) := by
      rw [hdc]
    omega
  · have hdr : s'.delivered.count (redrawEv w) = s4.delivered.count (redrawEv w) := by
      rw [hdc]
    omega

/-- Witness for C2: window 7 is both destroy-pending and redraw-pending in a
fresh running loop with a passive application; the cycle delivers exactly
one `Destroyed` for it and no `RedrawRequested`. -/
theorem destroy_before_redraw_witness :
    ∃ s', runUntilCleared trivApp 10 (execAt .init [7] [7]) [Event.newEvents .init] 0
        = some s'
      ∧ 1 ≤ s'.delivered.count (destroyEv 7)
      ∧ s'.delivered.count (redrawEv 7) = 0 := by
  have hsome : (runUntilCleared trivApp 10 (execAt .init [7] [7])
      [Event.newEvents .init] 0).isSome = true := by decide
  obtain ⟨s', hs'⟩ := Option.isSome_iff_exists.mp hsome
  refine ⟨s', hs', ?_⟩
  have h := destroy_before_redraw trivApp 10 (execAt .init [7] [7]) s'
      [Event.newEvents .init] 0 LoopState.init 7 rfl (by decide)
      (fun a e hmem => by simp [trivApp] at hmem) (by decide) (by decide) hs'
  refine ⟨?_, ?_⟩
  · have := h.1
    simpa [execAt] using this
  · have := h.2
    simpa [execAt] using this

/-! ## C3 : exit cancellation -/

/-- C3: Exit cancellation.  Once exit has been requested (the exit flag is
set), the cycle that observes it completes and then tears the loop down
exactly once: the runner ends `Destroyed` and the teardown counter grows by
exactly one; the queue is never consumed from that point (everything that
was or gets enqueued is still sitting there, unhonored, when the loop
dies); and afterwards `send_events` is a no-op that discards its events —
in particular nothing is ever delivered to the application handler after the
loop has reached the `Exit`/`Destroyed` state, and teardown can never run a
second time. -/
theorem exit_cancellation {σ : Type} (app : App σ) (fuel : Nat) (s s' : Exec σ)
    (evs : List Event) (now : Nat) (st : LoopState)
    (hrun : s.runner = RunnerEnum.running st)
    (hex : s.exitFlag = true)
    (hrc : runUntilCleared app fuel s evs now = some s') :
    s'.runner = RunnerEnum.destroyed
    ∧ s'.teardown_count = s.teardown_count + 1
    ∧ (∃ t, s'.events = s.events ++ t)
    ∧ (∀ (fuel2 : Nat) (evs2 : List Event) (now2 : Nat),
        sendEvents app fuel2 s' evs2 now2 = some s') := by
  obtain ⟨s1, s2, s3, s4, h1, h2, h3, h4, hfin⟩ :=
    runUntilCleared_parts app fuel s evs now s' hrc
  have c01 : CoreInv s s1 := (handleEvents_inv app 0 fuel evs s s1 h1).toCore
  have c12 : CoreInv s1 s2 := processDestroy_core app fuel s1 s2 h2
  have c2a : CoreInv s2 ({ s2 with redraw_pending := [] } : Exec σ) :=
    CoreInv.same rfl rfl rfl rfl rfl
  have c23 : CoreInv ({ s2 with redraw_pending := [] } : Exec σ) s3 :=
    (drainRedraws_inv app 0 fuel s2.redraw_pending _ s3 h3).toCore
  have c34 : CoreInv s3 s4 := ((handleEvent_inv app 0 fuel).1 _ _ _ h4).toCore
  have c : CoreInv s s4 := ((c01.trans c12).trans (c2a.trans c23)).trans c34
  have hex4 : s4.exitFlag = true := c.exit_mono hex
  have hrun4 : s4.runner = RunnerEnum.running st := by
    rw [c.runner_eq]
    exact hrun
  have hacf := applyControlFlow_exit_runner s4 now st hex4 hrun4
  have hclosed : isClosed (applyControlFlow s4 now) = true := isClosed_of_exit _ hacf
  rw [if_pos hclosed] at hfin
  have hr : s'.runner = RunnerEnum.destroyed := by
    rw [hfin]
    exact (handleLoopDestroyed_spec _).1
  refine ⟨hr, ?_, ?_, ?_⟩
  · rw [hfin, (handleLoopDestroyed_spec _).2.2.2, applyControlFlow_teardown,
      c.teardown_eq]
  · obtain ⟨t, ht⟩ := c.exit_events hex
    refine ⟨t, ?_⟩
    rw [hfin, (handleLoopDestroyed_spec _).2.2.1, applyControlFlow_events, ht]
  · intro fuel2 evs2 now2
    have hcl : isClosed s' = true := by
      unfold isClosed
      rw [hr]
    unfold sendEvents
    rw [hcl, if_pos rfl]

/-- Witness for C3: a running loop whose exit flag is already set runs one
cycle with a passive application; afterwards the runner is destroyed,
teardown ran exactly once, and a later `send_events` discards its events. -/
theorem exit_cancellation_witness :
    ∃ s', runUntilCleared trivApp 10 { execAt .init [] [] with exitFlag := true }
        [Event.newEvents .init] 0 = some s'
      ∧ s'.runner = RunnerEnum.destroyed
      ∧ s'.teardown_count = 1
      ∧ sendEvents trivApp 5 s' [Event.suspended] 0 = some s' := by
  have hsome : (runUntilCleared trivApp 10 { execAt .init [] [] with exitFlag := true }
      [Event.newEvents .init] 0).isSome = true := by decide
  obtain ⟨s', hs'⟩ := Option.isSome_iff_exists.mp hsome
  obtain ⟨hr, ht, _, hsend⟩ := exit_cancellation trivApp 10
    { execAt .init [] [] with exitFlag := true } s' [Event.newEvents .init] 0
    LoopState.init rfl rfl hs'
  exact ⟨s', hs', hr, by simpa [execAt] using ht, hsend 5 [Event.suspended] 0⟩

/-! ## C4 : WaitUntil scheduling -/

/-- C4 (amended): applying `ControlFlow::WaitUntil(deadline)` at time `now`
schedules a wake after `max(deadline - now, 0)` (the recorded delay is `0`
when `deadline <= now` and `deadline - now` otherwise, which in truncated
natural subtraction is `deadline - now` either way); the scheduled callback
captures the *scheduling* time and the deadline, so whenever the platform
fires it — early, on time, or late — the resulting cycle opens with
`NewEvents(ResumeTimeReached { start := now, requested_resume := deadline })`:
`start` is the time `apply_control_flow` ran, not the actual fire time.
Consequently, for a deadline in the past the cause carries
`requested_resume = deadline` and a start field at least the deadline. -/
theorem wait_until_scheduling {σ : Type} (s : Exec σ) (now deadline : Nat)
    (st : LoopState) (hrun : s.runner = RunnerEnum.running st)
    (hex : s.exitFlag = false)
    (hcf : s.control_flow = ControlFlow.waitUntil deadline) :
    ((applyControlFlow s now).runner = RunnerEnum.running
      (LoopState.waitUntil now deadline (if deadline ≤ now then 0 else deadline - now)))
    ∧ (if deadline ≤ now then 0 else deadline - now) = deadline - now
    ∧ (∀ {σ2 : Type} (app : App σ2) (fuel : Nat) (s2 s2' : Exec σ2) (st2 : LoopState)
        (fireTime : Nat), s2.runner = RunnerEnum.running st2 →
        fireWaitUntil app fuel s2 now deadline fireTime = some s2' →
        s2'.delivered.get? s2.delivered.length
          = some (Event.newEvents (StartCause.resumeTimeReached now deadline)))
    ∧ (deadline ≤ now →
        ∃ startField, StartCause.resumeTimeReached startField deadline
            = StartCause.resumeTimeReached now deadline
          ∧ deadline ≤ startField) := by
  refine ⟨applyControlFlow_waitUntil s now deadline st hex hcf hrun, ?_, ?_, ?_⟩
  · by_cases h : deadline ≤ now
    · rw [if_pos h]
      omega
    · rw [if_neg h]
  · intro σ2 app fuel s2 s2' st2 fireTime hrun2 hfire
    unfold fireWaitUntil resume_time_reached at hfire
    obtain ⟨sa, sb, sc, sd, h1, h2, h3, h4, hfin⟩ :=
      runUntilCleared_parts app fuel s2 _ fireTime s2' hfire
    unfold handleEvents at h1
    split at h1
    · exact absurd h1 (by simp)
    next sa0 hsa0 =>
      unfold handleEvents at h1
      simp only [Option.some_inj] at h1
      subst h1
      obtain ⟨t, ht⟩ := handleEvent_head app fuel s2 _ sa0 st2 hrun2 hsa0
      have cb : CoreInv sa0 sd :=
        ((processDestroy_core app fuel _ _ h2).trans
          ((CoreInv.same rfl rfl rfl rfl rfl :
            CoreInv sb ({ sb with redraw_pending := [] } : Exec σ2)).trans
          (drainRedraws_inv app 0 fuel sb.redraw_pending _ sc h3).toCore)).trans
          ((handleEvent_inv app 0 fuel).1 _ _ _ h4).toCore
      obtain ⟨t2, ht2⟩ := cb.deliv_mono
      have hdel : s2'.delivered = sd.delivered := by
        rw [hfin]
        split
        · rw [(handleLoopDestroyed_spec _).2.1, applyControlFlow_delivered]
        · rw [applyControlFlow_delivered]
      rw [hdel, ht2, ht, List.append_assoc]
      exact get_append_cons _ _ _
  · intro h
    exact ⟨now, rfl, h⟩

/-- Witness for C4's amended theorem: a loop running with
`ControlFlow::WaitUntil(10)` applies its control flow at time 3, recording
the schedule `WaitUntil{start := 3, deadline := 10, delay := 7}`; firing the
scheduled callback (here at the late time 25) opens the next cycle with
`ResumeTimeReached { start := 3, requested_resume := 10 }`. -/
theorem wait_until_scheduling_witness :
    (applyControlFlow { execAt .init [] [] with control_flow := .waitUntil 10 } 3).runner
      = RunnerEnum.running (LoopState.waitUntil 3 10 7)
    ∧ ∃ s2', fireWaitUntil trivApp 10 (execAt .init [] []) 3 10 25 = some s2'
      ∧ s2'.delivered.get? 0
          = some (Event.newEvents (StartCause.resumeTimeReached 3 10)) := by
  have h := wait_until_scheduling
    { execAt .init [] [] with control_flow := .waitUntil 10 } 3 10 LoopState.init
    rfl rfl rfl
  constructor
  · have h1 := h.1
    norm_num at h1
    exact h1
  · have hsome : (fireWaitUntil trivApp 10 (execAt .init [] []) 3 10 25).isSome
        = true := by decide
    obtain ⟨s2', hs2'⟩ := Option.isSome_iff_exists.mp hsome
    refine ⟨s2', hs2', ?_⟩
    exact h.2.2.1 trivApp 10 (execAt .init [] []) s2' LoopState.init 25 rfl hs2'

/-- C4 (counterexample to the claim as stated): the claim asserts that the
actual fire time becomes the `start` field of the `ResumeTimeReached`
cause.  Firing, at actual time 25, the wake scheduled at time 0 for
deadline 10 delivers `ResumeTimeReached { start := 0, requested_resume :=
10 }` — the captured scheduling time, not the fire time 25 the claim
predicts. -/
theorem wait_until_start_field_cex :
    ((fireWaitUntil trivApp 10 (execAt (.waitUntil 0 10 10) [] []) 0 10 25).map
        fun s2' => s2'.delivered.head?)
      = some (some (Event.newEvents (StartCause.resumeTimeReached 0 10)))
    ∧ Event.newEvents (StartCause.resumeTimeReached 0 10)
        ≠ Event.newEvents (StartCause.resumeTimeReached 25 10) :=
  ⟨by decide, by decide⟩

/-! ## C6 : ImeEnableRequest::new capability/data agreement -/

/-- C6: `ImeEnableRequest::new(caps, data)` returns `None` exactly when, for
at least one of the three fields (`cursor_area`, `purpose`,
`surrounding_text`), the capability flag and the presence of the
corresponding data field disagree (XOR per field), and returns `Some` when
all three pairs agree. -/
theorem imeEnableRequest_new_spec (caps : ImeCapabilities) (data : ImeRequestData) :
    (ImeEnableRequest.new caps data = none ↔
      caps.cursor_area ≠ data.cursor_area.isSome ∨
      caps.purpose ≠ data.purpose.isSome ∨
      caps.surrounding_text ≠ data.surrounding_text.isSome)
    ∧ ((ImeEnableRequest.new caps data).isSome ↔
      (caps.cursor_area = data.cursor_area.isSome ∧
       caps.purpose = data.purpose.isSome ∧
       caps.surrounding_text = data.surrounding_text.isSome)) := by
  rcases caps with ⟨p, c, st⟩
  rcases data with ⟨pd, cd, sd⟩
  cases p <;> cases c <;> cases st <;> cases pd <;> cases cd <;> cases sd <;>
    simp [ImeEnableRequest.new]

/-! ## C7 : ImeSurroundingText::new validation -/

/-- C7: `ImeSurroundingText::new(text, cursor, anchor)` fails with
`TextTooLong` whenever the text is 4000 bytes or more; otherwise fails with
`CursorBadPosition` whenever `cursor` exceeds the text's length or does not
fall on a UTF-8 code-point boundary; analogously (`AnchorBadPosition`) for
`anchor`; and succeeds, storing text, cursor and anchor unchanged, when all
three checks pass. -/
theorem imeSurroundingText_new_spec (text : List Nat) (cursor anchor : Nat) :
    (4000 ≤ text.length →
      ImeSurroundingText.new text cursor anchor = .error .textTooLong)
    ∧ (text.length < 4000 →
      (text.length < cursor ∨ isCharBoundary text cursor = false) →
      ImeSurroundingText.new text cursor anchor = .error .cursorBadPosition)
    ∧ (text.length < 4000 →
      isCharBoundary text cursor = true →
      (text.length < anchor ∨ isCharBoundary text anchor = false) →
      ImeSurroundingText.new text cursor anchor = .error .anchorBadPosition)
    ∧ (text.length < 4000 →
      isCharBoundary text cursor = true → isCharBoundary text anchor = true →
      ImeSurroundingText.new text cursor anchor = .ok ⟨text, cursor, anchor⟩) := by
  refine ⟨fun h => ?_, fun h hc => ?_, fun h hc ha => ?_, fun h hc ha => ?_⟩
  · unfold ImeSurroundingText.new
    rw [if_neg (by omega)]
  · have hbad : isCharBoundary text cursor = false := by
      rcases hc with hgt | hf
      · rcases hb : isCharBoundary text cursor with _ | _
        · rfl
        · exact absurd (isCharBoundary_le hb) (by omega)
      · exact hf
    unfold ImeSurroundingText.new
    rw [if_pos h]
    rw [if_neg (by simp [hbad])]
  · have hbad : isCharBoundary text anchor = false := by
      rcases ha with hgt | hf
      · rcases hb : isCharBoundary text anchor with _ | _
        · rfl
        · exact absurd (isCharBoundary_le hb) (by omega)
      · exact hf
    unfold ImeSurroundingText.new
    rw [if_pos h]
    rw [if_pos (by simp [hc, isCharBoundary_le hc])]
    rw [if_neg (by simp [hbad])]
  · unfold ImeSurroundingText.new
    rw [if_pos h]
    rw [if_pos (by simp [hc, isCharBoundary_le hc])]
    rw [if_pos (by simp [ha, isCharBoundary_le ha])]

/-- Witness for C7 on the spec's own examples: 4000 identical ASCII bytes
are too long; byte index 1 inside the two-byte Cyrillic letter (0xD0 0xB0)
is a bad cursor and a bad anchor; "foo" with caret and anchor at its end is
accepted unchanged. -/
theorem imeSurroundingText_new_witness :
    ImeSurroundingText.new (List.replicate 4000 97) 0 0 = .error .textTooLong
    ∧ ImeSurroundingText.new [208, 176] 1 1 = .error .cursorBadPosition
    ∧ ImeSurroundingText.new [208, 176] 2 1 = .error .anchorBadPosition
    ∧ ImeSurroundingText.new [102, 111, 111] 3 3 = .ok ⟨[102, 111, 111], 3, 3⟩ :=
  ⟨(imeSurroundingText_new_spec (List.replicate 4000 97) 0 0).1
     (by rw [List.length_replicate]),
   (imeSurroundingText_new_spec [208, 176] 1 1).2.1 (by decide) (Or.inr (by decide)),
   (imeSurroundingText_new_spec [208, 176] 2 1).2.2.1 (by decide) (by decide)
     (Or.inr (by decide)),
   (imeSurroundingText_new_spec [102, 111, 111] 3 3).2.2.2 (by decide) (by decide)
     (by decide)⟩

/-! ## C8 : Force::normalized -/

/-- C8: `Force::normalized()` returns `x` unchanged for every
`Force::Normalized(x)`, and `force / max_possible_force` for every
`Force::Calibrated` with a nonzero maximum, with no clamping of
out-of-`[0, 1]` results: `force = 5.0, max_possible_force = 2.5` yields
`2.0`. -/
theorem force_normalized_spec :
    (∀ x : ℚ, (Force.normalized x).normalizedValue = x)
    ∧ (∀ f m : ℚ, m ≠ 0 → (Force.calibrated f m).normalizedValue = f / m)
    ∧ (Force.calibrated 5 (5 / 2)).normalizedValue = 2
    ∧ ¬(Force.calibrated 5 (5 / 2)).normalizedValue ≤ 1 := by
  refine ⟨fun x => rfl, fun f m _ => rfl, by norm_num [Force.normalizedValue],
    by norm_num [Force.normalizedValue]⟩

/-- Witness for C8: instantiates both universally quantified parts, the
calibrated one at the spec's example with its nonzero-divisor hypothesis
discharged. -/
theorem force_normalized_witness :
    (Force.normalized (3 / 4)).normalizedValue = 3 / 4
    ∧ (Force.calibrated 5 (5 / 2)).normalizedValue = 5 / (5 / 2) :=
  ⟨force_normalized_spec.1 (3 / 4), force_normalized_spec.2.1 5 (5 / 2) (by norm_num)⟩

/-! ## C9 : ButtonSource::mouse_button -/

/-- C9: `ButtonSource::Unknown(n).mouse_button()` returns `Left` for `n = 0`,
`Middle` for `1`, `Right` for `2`, `Back` for `3`, `Forward` for `4` and
`Other(n)` otherwise; `ButtonSource::Mouse(b)` maps to `b` and every
`ButtonSource::Touch` maps to `Left`. -/
theorem buttonSource_mouse_button_spec :
    (∀ n : Nat, (ButtonSource.unknown n).mouse_button =
      if n = 0 then .left else if n = 1 then .middle else if n = 2 then .right
      else if n = 3 then .back else if n = 4 then .forward else .other n)
    ∧ (∀ b, (ButtonSource.mouse b).mouse_button = b)
    ∧ (∀ fid force, (ButtonSource.touch fid force).mouse_button = .left) := by
  refine ⟨fun n => ?_, fun b => rfl, fun _ _ => rfl⟩
  match n with
  | 0 => rfl
  | 1 => rfl
  | 2 => rfl
  | 3 => rfl
  | 4 => rfl
  | n + 5 =>
    have h0 : n + 5 ≠ 0 := by omega
    have h1 : n + 5 ≠ 1 := by omega
    have h2 : n + 5 ≠ 2 := by omega
    have h3 : n + 5 ≠ 3 := by omega
    have h4 : n + 5 ≠ 4 := by omega
    simp only [if_neg h0, if_neg h1, if_neg h2, if_neg h3, if_neg h4]
    rfl

/-! ## C5 : transactional input-method replacement -/

/-- C5: `replace_im` is all-or-nothing.  If opening a method fails it
reports `MethodOpenFailed`; if installing the destroy callback fails it
reports `SetDestroyCallbackFailed`; if rebuilding any single context fails
it reports `ContextCreationFailed` — in each case without producing any new
state, the caller's `inner` staying as it was.  Only when everything
succeeds is the new state installed: the new method, `is_destroyed` cleared,
the new fallback flag, and a context map with exactly the old windows where
each context is recreated under the new method from the old context's
`ic_area` and `is_allowed`.  Finally, when the server destroys a non-fallback
method and no replacement can be opened at all, `xim_destroy_callback`
aborts the process (`none`). -/
theorem replace_im_spec {env : ImeEnv} {inner : ImeInner} :
    (env.open_im = none → replace_im env inner = .error .methodOpenFailed)
    ∧ (∀ new_im is_fallback, env.open_im = some (new_im, is_fallback) →
        env.set_destroy_callback new_im = false →
        replace_im env inner = .error .setDestroyCallbackFailed)
    ∧ (∀ new_im is_fallback, env.open_im = some (new_im, is_fallback) →
        env.set_destroy_callback new_im = true →
        buildNewContexts env new_im inner.contexts = none →
        replace_im env inner = .error .contextCreationFailed)
    ∧ (∀ new_im is_fallback new_contexts,
        env.open_im = some (new_im, is_fallback) →
        env.set_destroy_callback new_im = true →
        buildNewContexts env new_im inner.contexts = some new_contexts →
        replace_im env inner = .ok { inner with
          im := some new_im
          contexts := new_contexts
          is_destroyed := false
          is_fallback := is_fallback })
    ∧ (∀ new_im (cs : List (XWindow × Option ImeContext)) l,
        buildNewContexts env new_im cs = some l →
        l = cs.map fun wc => (wc.1,
          env.new_context new_im wc.1 (wc.2.map fun c => c.ic_area)
            ((wc.2.map fun c => c.is_allowed).getD false)))
    ∧ (inner.is_fallback = false → env.open_im = none →
        xim_destroy_callback env inner = none) := by
  refine ⟨fun h => ?_, fun ni fb h hcb => ?_, fun ni fb h hcb hbc => ?_,
    fun ni fb nc h hcb hbc => ?_, fun ni cs l h => ?_, fun hfb h => ?_⟩
  · simp [replace_im, h]
  · simp [replace_im, h, hcb]
  · simp [replace_im, h, hcb, hbc]
  · simp [replace_im, h, hcb, hbc]
  · induction cs generalizing l with
    | nil => simpa [buildNewContexts] using h.symm
    | cons wc rest ih =>
      rcases wc with ⟨w, oc⟩
      unfold buildNewContexts at h
      dsimp only at h
      rcases hn : env.new_context ni w (oc.map fun c => c.ic_area)
          ((oc.map fun c => c.is_allowed).getD false) with _ | ctx
      · rw [hn] at h; exact absurd h (by simp)
      · rw [hn] at h
        rcases hr : buildNewContexts env ni rest with _ | tail
        · rw [hr] at h; exact absurd h (by simp)
        · rw [hr] at h
          simp only [Option.some_inj] at h
          subst h
          simpa [hn] using ih tail hr
  · unfold xim_destroy_callback
    rw [if_neg (by simp [hfb])]
    simp [replace_im, h]

/-- Witness for C5: a two-window inner (one context present, one absent)
under an environment where everything succeeds; `replace_im` installs the
rebuilt map preserving area and allowance, and with no obtainable method the
destroy callback aborts. -/
theorem replace_im_witness :
    replace_im
      ⟨some (⟨1⟩, false), fun _ => true,
        fun _ w area allowed => some ⟨area.getD ⟨0, 0, 0, 0⟩, allowed, w⟩⟩
      ⟨some ⟨0⟩, [(3, some ⟨⟨1, 2, 3, 4⟩, true, 30⟩), (4, none)], true, false⟩
      = .ok ⟨some ⟨1⟩,
          [(3, some ⟨⟨1, 2, 3, 4⟩, true, 3⟩), (4, some ⟨⟨0, 0, 0, 0⟩, false, 4⟩)],
          false, false⟩
    ∧ xim_destroy_callback
        ⟨none, fun _ => true, fun _ _ _ _ => none⟩
        ⟨some ⟨0⟩, [], false, false⟩ = none :=
  ⟨(replace_im_spec).2.2.2.1 ⟨1⟩ false
      [(3, some ⟨⟨1, 2, 3, 4⟩, true, 3⟩), (4, some ⟨⟨0, 0, 0, 0⟩, false, 4⟩)]
      rfl rfl rfl,
   (replace_im_spec).2.2.2.2.2 rfl rfl⟩

/-! ## C10 : non-empty monitor lists and the primary fallback -/

/-- C10: evaluation of `query_monitor_list` at the failing input.  Two
usable CRTCs; the X server reports CRTC 1's first output as primary, but
`get_output_info` fails for CRTC 1 and succeeds for CRTC 2.  The loop still
records `has_primary = true`, so the fallback that would mark the first
monitor primary is skipped: the produced list is non-empty yet contains no
primary monitor, and `primary_monitor` returns the dummy handle even though
monitors exist — contradicting the claimed invariant (and the source's own
stated intent "If we don't have a primary monitor, just pick one
ourselves!"). -/
theorem query_monitor_list_missing_primary :
    (query_monitor_list (fun id _ => if id = 1 then none else some ⟨0⟩) 7
        [(1, ⟨1, 1, 0, 0, [7]⟩), (2, ⟨1, 1, 0, 0, [8]⟩)] ≠ [])
    ∧ (∀ m ∈ query_monitor_list (fun id _ => if id = 1 then none else some ⟨0⟩) 7
        [(1, ⟨1, 1, 0, 0, [7]⟩), (2, ⟨1, 1, 0, 0, [8]⟩)], m.primary = false)
    ∧ primary_monitor (fun id _ => if id = 1 then none else some ⟨0⟩) 7
        [(1, ⟨1, 1, 0, 0, [7]⟩), (2, ⟨1, 1, 0, 0, [8]⟩)] = MonitorHandle.dummy := by
  refine ⟨by decide, by decide, by decide⟩

end Winit
